import Mathlib

/-!
# Verification of the flexalign read-mapping pipeline

A shallow embedding, in Lean, of the parts of the flexalign source that the
spec's claims are about, together with theorems settling those claims.

Conventions used throughout:
* Rust machine integers (`u8`/`u32`/`u64`/`usize`/`i32`/`i64`) are modelled as
  `Nat` or `Int`; a wrapping cast such as `as u8` is modelled with an explicit
  `% 256` / `emod 256` where the wrap is reachable and matters.
* Subtraction on unsigned Rust integers is modelled by `Nat` subtraction when
  the source guarantees no underflow at that spot, and by `Int` otherwise.
* Code paths that panic (failed `assert!`, `unwrap()` of `None`, out-of-bounds
  slicing, explicit `panic!`) are modelled by functions returning `Option`,
  with `none` for the panic.
* Byte strings (reads, references) are modelled as `List Nat`.
-/

namespace Flexalign

/-- Aligner status (src/align/common.rs, `enum Status`). -/
inductive Status where
  | OK
  | Partial
  | Dropped
deriving DecidableEq, Repr

/-- A candidate query-to-reference match (src/align/data_structures.rs,
`struct Seed`). Field names follow the source. -/
structure Seed where
  rpos : Nat
  rval : Nat
  qpos : Nat
  mismatch : Nat
  length : Nat
  flag : Nat
deriving DecidableEq, Repr, Inhabited

/-- A seed claimed by an anchor, in the anchor's resolved strand frame
(src/align/data_structures.rs, `struct AnchorSeed`). -/
structure AnchorSeed where
  qpos : Nat
  rpos : Nat
  length : Nat
deriving DecidableEq, Repr, Inhabited

def AnchorSeed.qbegin (s : AnchorSeed) : Nat := s.qpos

def AnchorSeed.qend (s : AnchorSeed) : Nat := s.qpos + s.length

def AnchorSeed.rbegin (s : AnchorSeed) : Nat := s.rpos

def AnchorSeed.rend (s : AnchorSeed) : Nat := s.rpos + s.length

/-- `AnchorSeed::extend_left` (src/align/data_structures.rs):
`qpos -= by; rpos -= by; length += by`.  The source only calls it with
`by` bounded by the seed's coordinates, so `Nat` subtraction is exact. -/
def AnchorSeed.extendLeft (s : AnchorSeed) (by_ : Nat) : AnchorSeed :=
  { s with qpos := s.qpos - by_, rpos := s.rpos - by_, length := s.length + by_ }

/-- `AnchorSeed::extend_right`: `length += by`. -/
def AnchorSeed.extendRight (s : AnchorSeed) (by_ : Nat) : AnchorSeed :=
  { s with length := s.length + by_ }

/-- `AnchorSeed::set`: copy all three fields from `other`. -/
def AnchorSeed.set (_self other : AnchorSeed) : AnchorSeed :=
  { qpos := other.qpos, rpos := other.rpos, length := other.length }

/-- `AnchorSeed::contains`: containment test on the query axis. -/
def AnchorSeed.contains (s other : AnchorSeed) : Bool :=
  decide (s.qbegin ≤ other.qbegin) && decide (other.qend ≤ s.qend)

/-- `AnchorSeed::reverse`: flip into the opposite strand frame,
`qpos ← read_length − length − qpos` (u32 arithmetic; the source only
reverses seeds lying inside the read). -/
def AnchorSeed.reverse (s : AnchorSeed) (readLength : Nat) : AnchorSeed :=
  { s with qpos := readLength - s.length - s.qpos }

/-- Result of `AnchorSeed::rpos_sorted_merge_into`
(src/align/data_structures.rs, `enum SeedOverlap`). -/
inductive SeedOverlap where
  | OffsetFwdOther
  | OffsetFwdSelf
  | ContainedOther
  | ContainedSelf
  | NoOverlap
deriving DecidableEq, Repr

/-- `AnchorSeed::rpos_sorted_merge_into` (src/align/data_structures.rs,
lines 254-294).  Returns the updated `self` together with the overlap kind;
`none` models the `assert!(other.qpos >= self.qpos || other.length >
self.length)` panic.  Note that in the `ContainedSelf` branch the source
updates `qpos` and `length` but leaves `rpos` unchanged. -/
def AnchorSeed.rposSortedMergeInto (self other : AnchorSeed) :
    Option (AnchorSeed × SeedOverlap) :=
  if ¬ (self.qpos ≤ other.qpos ∨ self.length < other.length) then none
  else
    let selfStart := self.qpos
    let selfEnd := self.qpos + self.length
    let otherStart := other.qpos
    let otherEnd := other.qpos + other.length
    if selfStart ≤ otherStart ∧ otherEnd ≤ selfEnd then
      some (self, SeedOverlap.ContainedOther)
    else if selfStart ≤ otherStart ∧ otherStart ≤ selfEnd ∧ selfEnd < otherEnd then
      some ({ self with length := self.length + (otherEnd - selfEnd) },
            SeedOverlap.OffsetFwdOther)
    else if otherStart ≤ selfStart ∧ selfEnd ≤ otherEnd then
      some ({ self with qpos := other.qpos, length := other.length },
            SeedOverlap.ContainedSelf)
    else
      some (self, SeedOverlap.NoOverlap)

/-- The two strand-dependent offsets of a seed
(src/align/data_structures.rs, `Seed::offsets`): forward `rpos − qpos`,
reverse `rpos − (read_length − length − qpos)`, as signed values. -/
def Seed.offsets (s : Seed) (readLength : Nat) : Int × Int :=
  ((s.rpos : Int) - (s.qpos : Int),
   (s.rpos : Int) - ((readLength : Int) - (s.length : Int) - (s.qpos : Int)))

/-- `Seed::closest_offset`: compare the two seeds frame-wise and return the
winning offset, its strand, and the absolute frame difference. -/
def Seed.closestOffset (s other : Seed) (readLength : Nat) : Int × Bool × Nat :=
  let sOff := s.offsets readLength
  let oOff := other.offsets readLength
  let diffFwd := (sOff.1 - oOff.1).natAbs
  let diffRev := (sOff.2 - oOff.2).natAbs
  if diffFwd < diffRev then (sOff.1, true, diffFwd) else (sOff.2, false, diffRev)

/-- A group of anchor seeds sharing reference, strand and offset
(src/align/data_structures.rs, `struct Anchor`).  The `cigar`,
`reference_cigar_range`, `flagged_for_indel`, `flag` and counter fields are
not consumed by any modelled operation and are elided; the CIGAR built by
`align_middle` is modelled as an explicit result instead. -/
structure Anchor where
  reference : Nat
  seed_count : Nat
  mismatches : Nat
  forward : Bool
  orientation_set : Bool
  seeds : List AnchorSeed
  score : Int
deriving DecidableEq, Repr, Inhabited

/-- `Anchor::from_seed`. -/
def Anchor.fromSeed (seed : Seed) : Anchor :=
  { reference := seed.rval
    seed_count := 1
    mismatches := seed.mismatch
    forward := true
    orientation_set := false
    seeds := [{ qpos := seed.qpos, rpos := seed.rpos, length := seed.length }]
    score := 0 }

/-- `Anchor::core_matches`: sum of the seed lengths. -/
def Anchor.coreMatches (a : Anchor) : Nat :=
  a.seeds.foldl (fun acc s => acc + s.length) 0

/-- `Anchor::indels`: sum over adjacent seed pairs of the absolute
difference between the query step and the reference step.  The source
computes it on `usize`; anchors hold ascending seeds so the differences do
not underflow and the `Int` model is exact. -/
def Anchor.indels (a : Anchor) : Nat :=
  if a.seeds.length ≤ 1 then 0
  else
    (a.seeds.zip a.seeds.tail).foldl
      (fun acc st =>
        acc + (((st.2.qpos : Int) - (st.1.qpos : Int)) -
               ((st.2.rpos : Int) - (st.1.rpos : Int))).natAbs) 0

/-- `Anchor::set_forward` (src/align/data_structures.rs): establishes the
orientation; `assert!(self.seeds.len() == 1)` is modelled by `none` for any
other seed count.  When the direction is reverse, the single seed is flipped
into the reverse frame. -/
def Anchor.setForward (a : Anchor) (fwd : Bool) (readLength : Nat) : Option Anchor :=
  match a.seeds with
  | [s] => some { a with
      orientation_set := true
      forward := fwd
      seeds := [if fwd then s else s.reverse readLength] }
  | _ => none

/-- Replace/merge `aseed` into the last element of a seed list, following the
`match ... rpos_sorted_merge_into` dispatch at the end of `Anchor::add_seed`:
`NoOverlap` appends the new seed, every other outcome keeps the (possibly
extended) last seed. -/
def mergeIntoLast : List AnchorSeed → AnchorSeed → Option (List AnchorSeed)
  | [], _ => none
  | [x], aseed =>
      (x.rposSortedMergeInto aseed).map (fun r =>
        match r.2 with
        | SeedOverlap.NoOverlap => [r.1, aseed]
        | _ => [r.1])
  | x :: y :: t, aseed => (mergeIntoLast (y :: t) aseed).map (fun l => x :: l)

/-- Second half of `Anchor::add_seed`, once the orientation is committed:
drop an out-of-order seed (possibly resetting a fresh orientation; dead in
practice since `seed_count` was already incremented), otherwise merge the
frame-adjusted seed into the rightmost anchor seed. -/
def Anchor.addSeedCommitted (a : Anchor) (s : AnchorSeed) (tail : List AnchorSeed)
    (aseed : AnchorSeed) (readLength : Nat) : Option Anchor :=
  let aseed := if a.forward then aseed else aseed.reverse readLength
  if aseed.qpos < s.qpos then
    some (if a.orientation_set ∧ a.seed_count = 1 then
            { a with
              orientation_set := false
              seeds := (if a.forward then s else s.reverse readLength) :: tail }
          else a)
  else
    (mergeIntoLast (s :: tail) aseed).map (fun l => { a with seeds := l })

/-- `Anchor::add_seed` (src/align/data_structures.rs, lines 1089-1158).
`none` models the panics (`unwrap` on an empty seed list, the
`panic!("Expected only one seed")` duplicate-position check). -/
def Anchor.addSeed (a0 : Anchor) (seed : Seed) (readLength : Nat) : Option Anchor :=
  let a : Anchor := { a0 with seed_count := a0.seed_count + 1 }
  match a.seeds with
  | [] => none
  | s :: tail =>
    if s.qpos = seed.qpos ∧ s.rpos = seed.rpos then
      -- duplicate-position seed: possibly shrink the stored seed, then the
      -- source panics unless this is the anchor's only seed
      if tail = [] then
        some (if seed.length < s.length then
                { a with
                  mismatches := seed.mismatch
                  seeds := { s with length := seed.length } :: tail }
              else a)
      else none
    else
      let aseed : AnchorSeed := ⟨seed.qpos, seed.rpos, seed.length⟩
      if ¬ a.orientation_set ∧ aseed.contains s then
        some { a with seeds := AnchorSeed.set s aseed :: tail }
      else if a.orientation_set then
        a.addSeedCommitted s tail aseed readLength
      else
        -- commit the direction implied by the new seed, flipping the first
        -- seed into the reverse frame when needed
        let fwd := decide (s.qpos < seed.qpos) && decide (s.rpos < seed.rpos)
        let s' := if fwd then s else s.reverse readLength
        Anchor.addSeedCommitted
          { a with forward := fwd, orientation_set := true, seeds := s' :: tail }
          s' tail aseed readLength

/-!
## C1: paired-end mapping quality (src/align/common.rs, `StdPairedAnchorMAPQ`)
-/

/-- An optional anchor per mate (src/align/common.rs, `struct AnchorPair`). -/
abbrev AnchorPair := Option Anchor × Option Anchor

/-- `StdAnchorScore::score` and `StdPairedAnchorMAPQ::score`:
`core_matches − mismatches` as a signed value (the anchor *pre-score*). -/
def stdAnchorScore (a : Anchor) : Int :=
  (a.coreMatches : Int) - (a.mismatches : Int)

/-- `StdPairedAnchorMAPQ::score_paired`: sum of the two mates' pre-scores,
a missing mate contributing 0. -/
def scorePaired (p : AnchorPair) : Int :=
  (match p.1 with
   | some a => stdAnchorScore a
   | none => 0) +
  (match p.2 with
   | some a => stdAnchorScore a
   | none => 0)

/-- `StdPairedAnchorMAPQ::anchor_mapq` (src/align/common.rs, lines 207-218):
`assert!(!anchors.is_empty())` is modelled by `none`; one pair gives 0;
otherwise the difference of the first two pairs' combined pre-scores is cast
to `u8` (`as u8` truncates, i.e. reduces modulo 256). -/
def anchorMapq (anchors : List AnchorPair) : Option Nat :=
  match anchors with
  | [] => none
  | [_] => some 0
  | best :: second :: _ =>
      some ((scorePaired best - scorePaired second).emod 256).toNat

/-- Combined *post-alignment* score of a pair: the sum of the mates' `score`
fields, which `smart_align` sets after aligning.  Stated from the claim's
words, for comparison with what `anchor_mapq` actually computes. -/
def postScorePaired (p : AnchorPair) : Int :=
  (match p.1 with
   | some a => a.score
   | none => 0) +
  (match p.2 with
   | some a => a.score
   | none => 0)

/-- Clamp an integer into `[0, 255]`, as the claim's words prescribe. -/
def clampToU8 (x : Int) : Nat :=
  (max 0 (min x 255)).toNat

/-- C1 counterexample data: two anchor pairs, sorted descending both by
combined pre-score (300 vs 0) and by combined post-alignment score (0 vs 0). -/
def c1BestAnchor : Anchor :=
  { reference := 0
    seed_count := 1
    mismatches := 0
    forward := true
    orientation_set := true
    seeds := [⟨0, 0, 300⟩]
    score := 0 }

def c1SecondAnchor : Anchor :=
  { reference := 1
    seed_count := 1
    mismatches := 0
    forward := true
    orientation_set := true
    seeds := [⟨0, 0, 0⟩]
    score := 0 }

def c1Pairs : List AnchorPair := [(some c1BestAnchor, none), (some c1SecondAnchor, none)]

/-- C1, counterexample: on `c1Pairs` the emitted mapping quality is
`(300 − 0) as u8 = 44`, while the claim's clamped post-alignment-score
difference is `clamp(0 − 0) = 0` (and even clamping the pre-score difference
would give 255, not 44).  The emitted value matches neither. -/
theorem c1_counterexample :
    anchorMapq c1Pairs = some 44 ∧
    clampToU8 (postScorePaired c1Pairs[0]! - postScorePaired c1Pairs[1]!) = 0 ∧
    clampToU8 (scorePaired c1Pairs[0]! - scorePaired c1Pairs[1]!) = 255 ∧
    (44 : Nat) ≠ 0 ∧ (44 : Nat) ≠ 255 := by
  refine ⟨by decide, by decide, by decide, by decide, by decide⟩

/-- C1, amended: `anchor_mapq` emits the difference of the first two pairs'
combined *pre-alignment* anchor scores (`core_matches − mismatches` summed
over the mates), truncated to `u8` — i.e. reduced modulo 256, not clamped —
and emits 0 when there is exactly one anchor pair. -/
theorem c1_anchor_mapq_amended :
    (∀ (p1 p2 : AnchorPair) (rest : List AnchorPair),
      anchorMapq (p1 :: p2 :: rest) =
        some ((scorePaired p1 - scorePaired p2).emod 256).toNat) ∧
    (∀ p : AnchorPair, anchorMapq [p] = some 0) := by
  constructor
  · intro p1 p2 rest
    rfl
  · intro p
    rfl

/-!
## C9: canonical k-mer selection (src/align/process/kmer_extractor.rs)

The k-mer iterator, the 2-bit packing and `Kmer::middle::<C>` live in the
external `kmerrs` crate; they are abstracted as the window list and the
`mid` function.  The minimizer predicate is likewise abstracted.
-/

/-- `StdKmerExtractor::generate` (src/align/process/kmer_extractor.rs,
lines 26-52).  `windows` is the stream produced by `KmerIter` — per window a
position and the forward and reverse-complement k-mers; `mid` models
`Kmer::middle::<C>` (extraction of the core-mer) and `isMin` models
`Minimizer::is_minimizer` applied to the core-mer's bits. -/
def kmerGenerate (mid : Nat → Nat) (isMin : Nat → Bool)
    (windows : List (Nat × Nat × Nat)) : List (Nat × Nat) :=
  windows.foldl (fun acc w =>
    let cmerFwd := mid w.2.1
    let cmerRev := mid w.2.2
    let kmer := if cmerFwd < cmerRev then w.2.1 else w.2.2
    let cmer := min cmerFwd cmerRev
    if isMin cmer then acc ++ [(w.1, kmer)] else acc) []

lemma kmerGenerate_foldl_acc (mid : Nat → Nat) (isMin : Nat → Bool)
    (windows : List (Nat × Nat × Nat)) (acc : List (Nat × Nat)) :
    windows.foldl (fun acc w =>
      let cmerFwd := mid w.2.1
      let cmerRev := mid w.2.2
      let kmer := if cmerFwd < cmerRev then w.2.1 else w.2.2
      let cmer := min cmerFwd cmerRev
      if isMin cmer then acc ++ [(w.1, kmer)] else acc) acc =
    acc ++ windows.foldl (fun acc w =>
      let cmerFwd := mid w.2.1
      let cmerRev := mid w.2.2
      let kmer := if cmerFwd < cmerRev then w.2.1 else w.2.2
      let cmer := min cmerFwd cmerRev
      if isMin cmer then acc ++ [(w.1, kmer)] else acc) [] := by
  induction windows generalizing acc with
  | nil => simp
  | cons w ws ih =>
      simp only [List.foldl_cons]
      by_cases h : isMin (min (mid w.2.1) (mid w.2.2)) = true
      · simp only [h, if_pos]
        rw [ih, ih ([] ++ _)]
        simp
      · simp only [eq_false_of_ne_true h]
        rw [ih, ih]
        simp

lemma kmerGenerate_eq_filterMap (mid : Nat → Nat) (isMin : Nat → Bool)
    (windows : List (Nat × Nat × Nat)) :
    kmerGenerate mid isMin windows = windows.filterMap (fun w =>
      if isMin (min (mid w.2.1) (mid w.2.2)) then
        some (w.1, if mid w.2.1 < mid w.2.2 then w.2.1 else w.2.2)
      else none) := by
  induction windows with
  | nil => rfl
  | cons w ws ih =>
      unfold kmerGenerate
      simp only [List.foldl_cons]
      rw [kmerGenerate_foldl_acc, List.filterMap_cons]
      by_cases h : isMin (min (mid w.2.1) (mid w.2.2)) = true
      · simp only [h, if_pos]
        rw [← ih]
        rfl
      · simp only [eq_false_of_ne_true h]
        rw [← ih]
        simp [kmerGenerate]

/-- C9: for every window the extractor keeps the forward k-mer exactly when
the forward core-mer compares less than the reverse-complement core-mer
(otherwise the reverse-complement k-mer), and a pair `(qpos, kmer)` is
emitted if and only if the minimizer predicate accepts the canonical
core-mer — which is the core-mer of the kept k-mer. -/
theorem c9_kmer_canonical_selection (mid : Nat → Nat) (isMin : Nat → Bool)
    (windows : List (Nat × Nat × Nat)) (p k : Nat) :
    ((p, k) ∈ kmerGenerate mid isMin windows ↔
      ∃ kf kr, (p, kf, kr) ∈ windows ∧
        k = (if mid kf < mid kr then kf else kr) ∧
        isMin (min (mid kf) (mid kr)) = true) ∧
    (∀ kf kr : Nat, min (mid kf) (mid kr) =
        mid (if mid kf < mid kr then kf else kr)) := by
  constructor
  · rw [kmerGenerate_eq_filterMap]
    rw [List.mem_filterMap]
    constructor
    · rintro ⟨⟨pos, kf, kr⟩, hmem, hval⟩
      by_cases h : isMin (min (mid kf) (mid kr)) = true
      · simp only [h, if_pos, Option.some.injEq, Prod.mk.injEq] at hval
        obtain ⟨hp, hk⟩ := hval
        exact ⟨kf, kr, by rw [hp] at hmem; exact hmem, hk.symm, h⟩
      · simp only [eq_false_of_ne_true h, if_neg] at hval
        simp at hval
    · rintro ⟨kf, kr, hmem, hk, hmin⟩
      refine ⟨(p, kf, kr), hmem, ?_⟩
      simp only [hmin, if_pos, hk]
  · intro kf kr
    by_cases h : mid kf < mid kr
    · simp [h, min_eq_left (le_of_lt h)]
    · simp [h, min_eq_right (le_of_not_lt h)]

/-!
## C2: paired-end insert-size filter
(src/align/process/anchor_extractor.rs, `insert_size` and the pair
enumeration inside `StdPairedAnchorExtractor::generate`)
-/

/-- A `u64` value reinterpreted as `i64` (`as i64`): values at or above
`2^63` become negative. -/
def u64AsI64 (u : Nat) : Int :=
  if u < 2 ^ 63 then (u : Int) else (u : Int) - 2 ^ 64

/-- Wrap-around of a signed 64-bit arithmetic result into `i64`. -/
def i64Wrap (x : Int) : Int := (x + 2 ^ 63).emod (2 ^ 64) - 2 ^ 63

/-- `Anchor::reference_pos` (src/align/data_structures.rs, lines 1083-1087):
projected reference span of the read, from the first seed.  `none` models
the `first().unwrap()` panic on an empty seed list.  Both the subtraction
`seed.rpos - seed.qpos as u64` and the addition `start + read_length as u64`
are `u64` operations and wrap (release semantics): a first seed with
`qpos > rpos` — a read overhanging the reference start — yields a start just
below `2^64`. -/
def Anchor.referencePos (a : Anchor) (readLength : Nat) : Option (Nat × Nat) :=
  a.seeds.head?.map (fun s =>
    let start : Nat := (s.rpos + 2 ^ 64 - s.qpos) % 2 ^ 64
    (start, (start + readLength) % 2 ^ 64))

/-- `insert_size` (src/align/process/anchor_extractor.rs, lines 373-380):
the two spans' starts are compared as *unsigned* (possibly wrapped) `u64`
values, then the chosen start minus the other mate's end is computed after
`as i64` reinterpretation, with wrapping `i64` subtraction.  `none` covers
both the source's `None` (a missing mate) and the `unwrap` panic inside
`reference_pos`. -/
def insertSize (aFwd aRev : Option Anchor) (readLengthFwd readLengthRev : Nat) :
    Option Int := do
  let af ← aFwd
  let ar ← aRev
  let spanFwd ← af.referencePos readLengthFwd
  let spanRev ← ar.referencePos readLengthRev
  pure (if spanFwd.1 < spanRev.1 then
          i64Wrap (u64AsI64 spanRev.1 - u64AsI64 spanFwd.2)
        else
          i64Wrap (u64AsI64 spanFwd.1 - u64AsI64 spanRev.2))

/-- `AnchorPair::resolve_orientation` (src/align/common.rs, lines 145-153):
if exactly one mate's strand is resolved, set the other mate to the opposite
strand.  `none` models the `assert!` inside `set_forward`. -/
def AnchorPair.resolveOrientation (p : AnchorPair) (readLengthFwd readLengthRev : Nat) :
    Option AnchorPair := do
  let p1 ←
    match p with
    | (some a0, some a1) =>
        if ¬ a0.orientation_set ∧ a1.orientation_set then
          (a0.setForward (! a1.forward) readLengthFwd).map
            (fun a0' => ((some a0', some a1) : AnchorPair))
        else some p
    | _ => some p
  match p1 with
  | (some a0, some a1) =>
      if ¬ a1.orientation_set ∧ a0.orientation_set then
        (a1.setForward (! a0.forward) readLengthRev).map
          (fun a1' => ((some a0, some a1') : AnchorPair))
      else some p1
  | _ => some p1

/-- Body of the pair-enumeration double loop in
`StdPairedAnchorExtractor::generate` (src/align/process/anchor_extractor.rs,
lines 453-466): a candidate `(a_fwd, a_rev)` pair is appended exactly when
its insert size is strictly below 1000; the kept pair is orientation-resolved.
`none` models the `panic!` on a missing insert size and the panics inside
`resolve_orientation`. -/
def anchorPairStep (readLengthFwd readLengthRev : Nat) (acc : List AnchorPair)
    (af ar : Anchor) : Option (List AnchorPair) := do
  let is ← insertSize (some af) (some ar) readLengthFwd readLengthRev
  if is < 1000 then do
    let p ← AnchorPair.resolveOrientation (some af, some ar) readLengthFwd readLengthRev
    pure (acc ++ [p])
  else pure acc

/-- The full enumeration (the `else` branch of the both-mates case in
`StdPairedAnchorExtractor::generate`): all forward/reverse anchor
combinations, filtered by `anchorPairStep`. -/
def enumerateAnchorPairs (anchorsFwd anchorsRev : List Anchor)
    (readLengthFwd readLengthRev : Nat) : Option (List AnchorPair) :=
  anchorsFwd.foldlM (fun acc af =>
    anchorsRev.foldlM (fun acc2 ar =>
      anchorPairStep readLengthFwd readLengthRev acc2 af ar) acc) []

/-- C2 counterexample data: single-seed anchors with resolved orientations.
`c2AFwd`'s span is `(0, 100)`, `c2ARev`'s is `(1100, 1200)`: the insert size
is exactly 1000.  `c2AFwd2`'s span is `(700, 800)`: insert size 300. -/
def c2AFwd : Anchor :=
  { reference := 5
    seed_count := 1
    mismatches := 0
    forward := true
    orientation_set := true
    seeds := [⟨0, 0, 20⟩]
    score := 0 }

def c2AFwd2 : Anchor :=
  { c2AFwd with seeds := [⟨0, 700, 20⟩] }

def c2ARev : Anchor :=
  { c2AFwd with forward := false, seeds := [⟨0, 1100, 20⟩] }

/-- A forward anchor whose first seed overhangs the reference start
(`qpos 50 > rpos 3`): its wrapped span is `(2^64 - 47, 53)`. -/
def c2AFwdOver : Anchor :=
  { c2AFwd with seeds := [⟨50, 3, 20⟩] }

/-- C2, counterexample: the pair `(c2AFwd, c2ARev)` has insert size exactly
1000 — "at most 1000 bp" in the claim's words — yet the enumeration drops
it: with two forward-side anchors only the 300-insert pair survives.
Additionally, a dovetail overhang wraps: `c2AFwdOver`'s span starts at
`2^64 - 47`, the unsigned start comparison takes the `else` branch, the
insert size comes out `-47 - 1200 = -1247`, and the pair is kept. -/
theorem c2_counterexample :
    insertSize (some c2AFwd) (some c2ARev) 100 100 = some 1000 ∧
    (1000 : Int) ≤ 1000 ∧
    enumerateAnchorPairs [c2AFwd, c2AFwd2] [c2ARev] 100 100 =
      some [(some c2AFwd2, some c2ARev)] ∧
    insertSize (some c2AFwdOver) (some c2ARev) 100 100 = some (-1247) ∧
    anchorPairStep 100 100 [] c2AFwdOver c2ARev =
      some [(some c2AFwdOver, some c2ARev)] := by
  refine ⟨by decide, by decide, by decide, by decide, by decide⟩

/-- C2, amended: in the enumeration an anchor pair is kept if and only if
its insert size *as the code computes it* (spans from wrapping `u64`
arithmetic, compared unsigned, differenced as `i64`) is *strictly less
than* 1000 (an insert of exactly 1000 bp is dropped; a dovetail overhang
can wrap to a negative value and keep the pair).  For anchors with at least
one seed (and a single seed whenever the orientation is still unresolved)
the step never panics: it appends the orientation-resolved pair when
`insert < 1000` and leaves the accumulator unchanged otherwise. -/
theorem c2_insert_size_amended (readLengthFwd readLengthRev : Nat)
    (acc : List AnchorPair) (af ar : Anchor)
    (hf : af.seeds ≠ []) (hr : ar.seeds ≠ [])
    (hfo : ¬ af.orientation_set → af.seeds.length = 1)
    (hro : ¬ ar.orientation_set → ar.seeds.length = 1) :
    ∃ is p, insertSize (some af) (some ar) readLengthFwd readLengthRev = some is ∧
      AnchorPair.resolveOrientation (some af, some ar) readLengthFwd readLengthRev
        = some p ∧
      anchorPairStep readLengthFwd readLengthRev acc af ar =
        some (if is < 1000 then acc ++ [p] else acc) := by
  obtain ⟨sf, tf, hsf⟩ := List.exists_cons_of_ne_nil hf
  obtain ⟨sr, tr, hsr⟩ := List.exists_cons_of_ne_nil hr
  have hins : (insertSize (some af) (some ar) readLengthFwd readLengthRev).isSome := by
    simp [insertSize, Anchor.referencePos, hsf, hsr]
  obtain ⟨is, hins⟩ := Option.isSome_iff_exists.mp hins
  have hsingle : ∀ (a : Anchor), a.seeds.length = 1 → ∃ s, a.seeds = [s] := by
    intro a hlen
    cases hse : a.seeds with
    | nil => simp [hse] at hlen
    | cons x xs =>
        cases xs with
        | nil => exact ⟨x, rfl⟩
        | cons y ys => rw [hse] at hlen; simp at hlen
  have hres : (AnchorPair.resolveOrientation (some af, some ar)
      readLengthFwd readLengthRev).isSome := by
    unfold AnchorPair.resolveOrientation
    by_cases h0 : af.orientation_set
    · by_cases h1 : ar.orientation_set
      · simp [h0, h1]
      · obtain ⟨s, hs⟩ := hsingle ar (hro (by simp [h1]))
        simp [h0, h1, Anchor.setForward, hs]
    · by_cases h1 : ar.orientation_set
      · obtain ⟨s, hs⟩ := hsingle af (hfo (by simp [h0]))
        simp [h0, h1, Anchor.setForward, hs]
      · simp [h0, h1]
  obtain ⟨p, hres⟩ := Option.isSome_iff_exists.mp hres
  refine ⟨is, p, hins, hres, ?_⟩
  unfold anchorPairStep
  rw [hins]
  by_cases hlt : is < 1000
  · simp [hlt, hres]
  · simp [hlt]

/-- C2, witness for the amended theorem at a concrete input. -/
theorem c2_insert_size_amended_witness :
    ∃ is p, insertSize (some c2AFwd2) (some c2ARev) 100 100 = some is ∧
      AnchorPair.resolveOrientation (some c2AFwd2, some c2ARev) 100 100 = some p ∧
      anchorPairStep 100 100 [] c2AFwd2 c2ARev =
        some (if is < 1000 then [] ++ [p] else []) :=
  c2_insert_size_amended 100 100 [] c2AFwd2 c2ARev
    (by decide) (by decide) (by decide) (by decide)

/-!
## C5: seed-merging `ContainedSelf` replacement
(src/align/data_structures.rs, `rpos_sorted_merge_into` / `add_seed`)
-/

/-- C5 failing input: an anchor (orientation resolved, forward) whose
rightmost seed is `(qpos 5, rpos 105, len 4)`, and a new seed
`(qpos 4, rpos 104, len 8)` that contains it on both axes. -/
def c5Anchor : Anchor :=
  { reference := 0
    seed_count := 2
    mismatches := 0
    forward := true
    orientation_set := true
    seeds := [⟨0, 100, 4⟩, ⟨5, 105, 4⟩]
    score := 0 }

def c5NewSeed : Seed :=
  { rpos := 104, rval := 0, qpos := 4, mismatch := 0, length := 8, flag := 0 }

/-- C5: the new seed `(q4, r104, len8)` contains the rightmost anchor seed
`(q5, r105, len4)` on both axes, but the `ContainedSelf` branch copies only
`qpos` and `length` from it — the result keeps `rpos = 105`, so the
"replaced" seed `(q4, r105, len8)` differs from the new seed `(q4, r104,
len8)` and its query-to-reference offset has silently shifted by one. -/
theorem c5_contained_self_keeps_rpos :
    AnchorSeed.rposSortedMergeInto ⟨5, 105, 4⟩ ⟨4, 104, 8⟩ =
      some (⟨4, 105, 8⟩, SeedOverlap.ContainedSelf) ∧
    Anchor.addSeed c5Anchor c5NewSeed 100 =
      some { c5Anchor with seed_count := 3, seeds := [⟨0, 100, 4⟩, ⟨4, 105, 8⟩] } ∧
    (⟨4, 105, 8⟩ : AnchorSeed) ≠ ⟨4, 104, 8⟩ := by
  refine ⟨by decide, by decide, by decide⟩

/-!
## C4: per-reference seed-run selection in single-end anchor extraction
(src/align/process/anchor_extractor.rs, `seed_group_indices_module`,
`group_into_anchor_module`, `StdAnchorExtractor::generate`)
-/

/-- `seed_group_indices_module` (src/align/process/anchor_extractor.rs,
lines 73-99): partition the (rval-sorted) seed list into maximal runs of
equal `rval`, returning the `(start, end)` index pairs and the largest run
size.  The `getD` default is never read: the fold only visits `1 ≤ i <
seeds.length`. -/
def seedGroupIndicesModule (seeds : List Seed) : List (Nat × Nat) × Nat :=
  let n := seeds.length
  let step := fun (st : Nat × List (Nat × Nat) × Nat) (i : Nat) =>
    if (seeds.getD (i - 1) default).rval ≠ (seeds.getD i default).rval then
      (i, st.2.1 ++ [(st.1, i)], max st.2.2 (i - st.1))
    else st
  let fin := (List.range' 1 (n - 1)).foldl step (0, [], 0)
  (fin.2.1 ++ [(fin.1, n)], max fin.2.2 (n - fin.1))

/-- One scan step of the peel loop in `group_into_anchor_module`
(src/align/process/anchor_extractor.rs, lines 165-198).  The state is the
anchor under construction, the committed offset, the committed strand, and
the deferred seeds (`other_indices`). -/
def peelStep (readLength : Nat) (first : Seed)
    (st : Anchor × Option Int × Option Bool × List Seed) (next : Seed) :
    Option (Anchor × Option Int × Option Bool × List Seed) :=
  let co := first.closestOffset next readLength
  if co.2.2 = 0 ∧ (st.2.2.1 = none ∨ st.2.2.1 = some co.2.1) then
    match (if st.2.1 = none then
             (st.1.setForward co.2.1 readLength).map
               (fun a => (a, some co.1, some co.2.1))
           else some (st.1, st.2.1, st.2.2.1)) with
    | none => none
    | some upd =>
        match upd.1.addSeed next readLength with
        | none => none
        | some a => some (a, upd.2.1, upd.2.2, st.2.2.2)
  else
    some (st.1, st.2.1, st.2.2.1, st.2.2.2 ++ [next])

/-- The peel loop of `group_into_anchor_module`: repeatedly take the first
unused seed as a fresh anchor, attach every compatible seed, and re-run on
the deferred bucket.  The worklist shrinks on every round, so the fuel
(called with the group size) is never exhausted. -/
def peelGroup (readLength : Nat) : Nat → List Seed → Option (List Anchor)
  | _, [] => some []
  | 0, _ :: _ => none
  | fuel + 1, first :: rest => do
      let st ← rest.foldlM (peelStep readLength first)
        (Anchor.fromSeed first, none, none, ([] : List Seed))
      let tailAnchors ← peelGroup readLength fuel st.2.2.2
      pure (st.1 :: tailAnchors)

/-- The seed-run order used by `StdAnchorExtractor::generate`:
`glidesort::sort_by_key(..., |(s, e)| -(e - s))`, i.e. a stable sort
descending by run size (modelled with the stable `insertionSort`). -/
def sortedSeedGroups (seeds : List Seed) : List (Nat × Nat) :=
  (seedGroupIndicesModule seeds).1.insertionSort
    (fun g1 g2 => (g2.2 - g2.1) ≤ (g1.2 - g1.1))

/-- `skip_threshold` in `StdAnchorExtractor::generate` (line 329):
`min(max_size as i32, 32) − 10`. -/
def anchorSkipThreshold (seeds : List Seed) : Int :=
  min (((seedGroupIndicesModule seeds).2 : Int)) 32 - 10

/-- The runs actually peeled by `StdAnchorExtractor::generate`
(lines 332-343): the first `min(8, len)` runs of the descending order,
skipping those with `size < skip_threshold`. -/
def selectedGroups (seeds : List Seed) : List (Nat × Nat) :=
  ((sortedSeedGroups seeds).take 8).filter
    (fun g => ! decide ((((g.2 - g.1 : Nat)) : Int) < anchorSkipThreshold seeds))

/-- `StdAnchorExtractor::generate` (src/align/process/anchor_extractor.rs,
lines 315-346): group, sort, select, and peel each selected run into
anchors. -/
def anchorGenerate (seeds : List Seed) (readLength : Nat) : Option (List Anchor) :=
  (selectedGroups seeds).foldlM (fun acc g => do
      let gseeds := (seeds.drop g.1).take (g.2 - g.1)
      let as ← peelGroup readLength gseeds.length gseeds
      pure (acc ++ as)) []

lemma setForward_reference {a a' : Anchor} {fwd : Bool} {rl : Nat}
    (h : a.setForward fwd rl = some a') : a'.reference = a.reference := by
  unfold Anchor.setForward at h
  split at h
  · simp only [Option.some.injEq] at h
    subst h
    rfl
  · simp at h

lemma addSeedCommitted_reference {a a' : Anchor} {s : AnchorSeed}
    {tail : List AnchorSeed} {aseed : AnchorSeed} {rl : Nat}
    (h : a.addSeedCommitted s tail aseed rl = some a') :
    a'.reference = a.reference := by
  simp only [Anchor.addSeedCommitted] at h
  repeat' split at h
  all_goals
    first
      | (rw [Option.map_eq_some'] at h; obtain ⟨l, _, h2⟩ := h; subst h2; rfl)
      | (simp only [Option.some.injEq] at h; subst h; rfl)

lemma addSeed_reference {a a' : Anchor} {s : Seed} {rl : Nat}
    (h : a.addSeed s rl = some a') : a'.reference = a.reference := by
  simp only [Anchor.addSeed] at h
  split at h
  · simp at h
  · rename_i s0 tail heq
    split at h
    · split at h
      · simp only [Option.some.injEq] at h
        subst h
        split <;> rfl
      · simp at h
    · split at h
      · simp only [Option.some.injEq] at h
        subst h
        rfl
      · split at h
        · have := addSeedCommitted_reference h
          exact this
        · have := addSeedCommitted_reference h
          exact this

lemma peelStep_spec {rl : Nat} {first : Seed}
    {st st1 : Anchor × Option Int × Option Bool × List Seed} {x : Seed}
    (h : peelStep rl first st x = some st1) :
    st1.1.reference = st.1.reference ∧
    (∀ s ∈ st1.2.2.2, s ∈ st.2.2.2 ∨ s = x) := by
  simp only [peelStep] at h
  split at h
  · split at h
    · simp at h
    · rename_i upd hupd
      split at h
      · simp at h
      · rename_i a ha
        simp only [Option.some.injEq] at h
        subst h
        refine ⟨?_, fun s hs => Or.inl hs⟩
        have hupd1 : upd.1.reference = st.1.reference := by
          split at hupd
          · rw [Option.map_eq_some'] at hupd
            obtain ⟨a0, ha0, h2⟩ := hupd
            subst h2
            exact setForward_reference ha0
          · simp only [Option.some.injEq] at hupd
            subst hupd
            rfl
        calc (a : Anchor).reference = upd.1.reference := addSeed_reference ha
        _ = st.1.reference := hupd1
  · simp only [Option.some.injEq] at h
    subst h
    refine ⟨rfl, fun s hs => ?_⟩
    rcases List.mem_append.mp hs with h1 | h2
    · exact Or.inl h1
    · exact Or.inr (List.mem_singleton.mp h2)

lemma peelFold_spec (rl : Nat) (first : Seed) :
    ∀ (rest : List Seed) (st st' : Anchor × Option Int × Option Bool × List Seed),
      rest.foldlM (peelStep rl first) st = some st' →
      st'.1.reference = st.1.reference ∧
      (∀ s ∈ st'.2.2.2, s ∈ st.2.2.2 ∨ s ∈ rest) := by
  intro rest
  induction rest with
  | nil =>
      intro st st' h
      simp only [List.foldlM_nil, Option.pure_def, Option.some.injEq] at h
      subst h
      exact ⟨rfl, fun s hs => Or.inl hs⟩
  | cons x xs ih =>
      intro st st' h
      rw [List.foldlM_cons] at h
      cases hp : peelStep rl first st x with
      | none => rw [hp] at h; simp at h
      | some st1 =>
          rw [hp] at h
          simp only [Option.bind_eq_bind, Option.some_bind] at h
          obtain ⟨href, hdef⟩ := ih st1 st' h
          obtain ⟨href1, hdef1⟩ := peelStep_spec hp
          refine ⟨href.trans href1, fun s hs => ?_⟩
          rcases hdef s hs with h1 | h2
          · rcases hdef1 s h1 with h3 | h4
            · exact Or.inl h3
            · exact Or.inr (h4 ▸ List.mem_cons_self x xs)
          · exact Or.inr (List.mem_cons_of_mem x h2)

lemma peelGroup_references (rl : Nat) :
    ∀ (fuel : Nat) (gseeds : List Seed) (anchors : List Anchor),
      peelGroup rl fuel gseeds = some anchors →
      ∀ a ∈ anchors, ∃ s ∈ gseeds, a.reference = s.rval := by
  intro fuel
  induction fuel with
  | zero =>
      intro gseeds anchors h
      cases gseeds with
      | nil =>
          simp only [peelGroup, Option.some.injEq] at h
          subst h
          intro a ha
          simp at ha
      | cons x xs => simp [peelGroup] at h
  | succ fuel ih =>
      intro gseeds anchors h
      cases gseeds with
      | nil =>
          simp only [peelGroup, Option.some.injEq] at h
          subst h
          intro a ha
          simp at ha
      | cons first rest =>
          simp only [peelGroup, Option.bind_eq_bind, bind, Option.bind_eq_some] at h
          obtain ⟨st, hst, h2⟩ := h
          obtain ⟨tailAnchors, htail, h3⟩ := h2
          simp only [Option.pure_def, Option.some.injEq] at h3
          subst h3
          intro a ha
          rcases List.mem_cons.mp ha with h4 | h5
          · subst h4
            obtain ⟨href, _⟩ := peelFold_spec rl first rest _ _ hst
            exact ⟨first, List.mem_cons_self _ _, href⟩
          · obtain ⟨s, hs, href⟩ := ih st.2.2.2 tailAnchors htail a h5
            obtain ⟨_, hdef⟩ := peelFold_spec rl first rest _ _ hst
            rcases hdef s hs with h6 | h7
            · simp at h6
            · exact ⟨s, List.mem_cons_of_mem _ h7, href⟩

lemma anchorGenerateFold_spec (seeds : List Seed) (rl : Nat) :
    ∀ (gs : List (Nat × Nat)) (acc out : List Anchor),
      gs.foldlM (fun acc g => do
          let gseeds := (seeds.drop g.1).take (g.2 - g.1)
          let as ← peelGroup rl gseeds.length gseeds
          pure (acc ++ as)) acc = some out →
      ∀ a ∈ out, a ∈ acc ∨ ∃ g ∈ gs,
        ∃ s ∈ (seeds.drop g.1).take (g.2 - g.1), a.reference = s.rval := by
  intro gs
  induction gs with
  | nil =>
      intro acc out h
      simp only [List.foldlM_nil, Option.pure_def, Option.some.injEq] at h
      subst h
      exact fun a ha => Or.inl ha
  | cons g gs ih =>
      intro acc out h
      rw [List.foldlM_cons] at h
      simp only [Option.bind_eq_bind, bind, Option.bind_eq_some] at h
      obtain ⟨init, ⟨as, hp, hpure⟩, hrest⟩ := h
      simp only [Option.pure_def, Option.some.injEq] at hpure
      subst hpure
      intro a ha
      rcases ih (acc ++ as) out hrest a ha with h1 | h2
      · rcases List.mem_append.mp h1 with h3 | h4
        · exact Or.inl h3
        · obtain ⟨s, hs, href⟩ := peelGroup_references rl _ _ _ hp a h4
          exact Or.inr ⟨g, List.mem_cons_self _ _, s, hs, href⟩
      · obtain ⟨g', hg', rest⟩ := h2
        exact Or.inr ⟨g', List.mem_cons_of_mem _ hg', rest⟩

/-- C4, amended, part of the statement: the amended selection rule and the
fact that every produced anchor originates in a selected run. -/
theorem c4_run_selection_amended (seeds : List Seed) (readLength : Nat) :
    (∀ g : Nat × Nat, g ∈ selectedGroups seeds ↔
      g ∈ (sortedSeedGroups seeds).take 8 ∧
      min (((seedGroupIndicesModule seeds).2 : Int)) 32 - 10 ≤ ((g.2 - g.1 : Nat) : Int)) ∧
    (∀ anchors, anchorGenerate seeds readLength = some anchors →
      ∀ a ∈ anchors, ∃ g ∈ selectedGroups seeds,
        ∃ s ∈ (seeds.drop g.1).take (g.2 - g.1), a.reference = s.rval) := by
  constructor
  · intro g
    unfold selectedGroups anchorSkipThreshold
    rw [List.mem_filter]
    simp only [Bool.not_eq_true', decide_eq_false_iff_not, not_lt]
  · intro anchors h a ha
    rcases anchorGenerateFold_spec seeds readLength (selectedGroups seeds) [] anchors h a ha with
      h1 | h2
    · simp at h1
    · exact h2

/-- C4 counterexample data: 40 same-offset seeds on reference 0 followed by
25 same-offset seeds on reference 1, sorted by `(rval, rpos)` as the seed
extractor guarantees. -/
def c4Seeds : List Seed :=
  ((List.range 40).map (fun i =>
    { rpos := 1000 + i, rval := 0, qpos := i, mismatch := 0, length := 20, flag := 0 })) ++
  ((List.range 25).map (fun i =>
    { rpos := 2000 + i, rval := 1, qpos := i, mismatch := 0, length := 20, flag := 0 }))

/-- The anchor the peel produces for the 40-seed run of `c4Seeds`. -/
def c4AnchorA : Anchor :=
  { reference := 0
    seed_count := 40
    mismatches := 0
    forward := true
    orientation_set := true
    seeds := [⟨0, 1000, 59⟩]
    score := 0 }

/-- The anchor the peel produces for the 25-seed run of `c4Seeds`. -/
def c4AnchorB : Anchor :=
  { reference := 1
    seed_count := 25
    mismatches := 0
    forward := true
    orientation_set := true
    seeds := [⟨0, 2000, 44⟩]
    score := 0 }

/-- C4, counterexample: on `c4Seeds` the largest run holds 40 seeds, yet the
run `(40, 65)` of size 25 — smaller than `max_size − 10 = 30` — is selected
and peeled into an anchor on reference 1, because the source's threshold is
`min(max_size, 32) − 10 = 22`, not `max_size − 10`. -/
theorem c4_counterexample :
    (seedGroupIndicesModule c4Seeds).2 = 40 ∧
    (40, 65) ∈ selectedGroups c4Seeds ∧
    anchorGenerate c4Seeds 100 = some [c4AnchorA, c4AnchorB] ∧
    c4AnchorB.reference = 1 ∧
    ¬ ((40 : Int) - 10 ≤ ((65 - 40 : Nat) : Int)) := by
  refine ⟨by decide, by decide, by decide, by decide, by decide⟩

/-- C4, witness for the amended theorem at the concrete input `c4Seeds`. -/
theorem c4_run_selection_amended_witness :
    (40, 65) ∈ selectedGroups c4Seeds ∧
    (∃ g ∈ selectedGroups c4Seeds, ∃ s ∈ (c4Seeds.drop g.1).take (g.2 - g.1),
      c4AnchorB.reference = s.rval) := by
  constructor
  · exact ((c4_run_selection_amended c4Seeds 100).1 (40, 65)).mpr ⟨by decide, by decide⟩
  · exact (c4_run_selection_amended c4Seeds 100).2 [c4AnchorA, c4AnchorB]
      (by decide) c4AnchorB (by decide)

/-!
## C8 and C3: seed extraction from index ranges
(src/align/process/seed_extractor.rs, `StdSeedExtractor`)

The index query result `Range<F>` is `(qpos, flex, VRange, range_size)`;
the `VRange`'s packed `u64` records are modelled pre-decoded as
`(rval, rpos)` pairs (`VD::get`), and the stored flank fingerprints as
`Nat`s.  `Header::dist` lives in the external `flexmap` crate and is
abstracted as the function `distf flex header` (a Hamming distance on
32-bit fingerprints, hence < 256 on real inputs).  In the index the header
and position vectors are parallel (equal length), so the source's
`positions[index]` indexing is modelled by `zip`. -/
structure FRange where
  qpos : Nat
  flex : Nat
  header : Option (List Nat)
  positions : List (Nat × Nat)
deriving DecidableEq, Repr

/-- `Seed::from_flexmer` (src/align/data_structures.rs, lines 33-43):
an exact hit (`dist = 0`) keeps the k-mer span `K` at `(qpos, rpos)`; a
fuzzy hit keeps only the core span `C`, re-centred by `F/2` on both axes.
`dist as u8` and the `u8` `length` field are modelled with `% 256`. -/
def Seed.fromFlexmer (K C F : Nat) (qpos rpos value dist : Nat) : Seed :=
  { qpos := if dist = 0 then qpos else qpos + F / 2
    rpos := if dist = 0 then rpos else rpos + F / 2
    rval := value
    mismatch := dist % 256
    length := (if dist = 0 then K else C) % 256
    flag := 0 }

/-- `Seed::from_coremer` (src/align/data_structures.rs, lines 45-55). -/
def Seed.fromCoremer (K C F : Nat) (qpos rpos value : Nat) : Seed :=
  { qpos := qpos + F / 2
    rpos := rpos + F / 2
    rval := value
    mismatch := 0
    length := C % 256
    flag := 0 }

/-- One iteration of the min/count loop in `retrieve_seeds`:
`if dist < min_dist { min_dist = dist; count = 0; }
 if dist == min_dist { count += 1 }`. -/
def minCountStep (mc : Nat × Nat) (d : Nat) : Nat × Nat :=
  let mc := if d < mc.1 then (d, 0) else mc
  if d = mc.1 then (mc.1, mc.2 + 1) else mc

/-- The min/count loop over a range's headers, started at
`(u32::MAX, 0)`. -/
def minCountLoop (distf : Nat → Nat → Nat) (flex : Nat) (hs : List Nat) : Nat × Nat :=
  hs.foldl (fun mc h => minCountStep mc (distf flex h)) (4294967295, 0)

/-- The per-range body of `StdSeedExtractor::retrieve_seeds`
(src/align/process/seed_extractor.rs, lines 35-75): `none` means the range
was discarded for ambiguity (`count > max_best_flex`); otherwise the seeds
the range contributes. -/
def rangeStep (K C F maxBestFlex : Nat) (distf : Nat → Nat → Nat) (r : FRange) :
    Option (List Seed) :=
  match r.header with
  | some hs =>
      let mc := minCountLoop distf r.flex hs
      if mc.2 ≤ maxBestFlex then
        some ((hs.zip r.positions).filterMap (fun p =>
          if distf r.flex p.1 = mc.1 then
            some (Seed.fromFlexmer K C F r.qpos p.2.2 p.2.1 (distf r.flex p.1))
          else none))
      else none
  | none => some (r.positions.map (fun vr => Seed.fromCoremer K C F r.qpos vr.2 vr.1))

/-- `StdSeedExtractor::retrieve_seeds`: consume ranges in order, breaking
once `max_ranges` productive ranges were consumed; returns the accumulated
seed list, the productive count and the discard count. -/
def retrieveSeedsGo (K C F maxBestFlex maxRanges : Nat) (distf : Nat → Nat → Nat) :
    List FRange → List Seed → Nat → Nat → List Seed × Nat × Nat
  | [], seeds, nmatches, disc => (seeds, nmatches, disc)
  | r :: rs, seeds, nmatches, disc =>
    match rangeStep K C F maxBestFlex distf r with
    | none => retrieveSeedsGo K C F maxBestFlex maxRanges distf rs seeds nmatches (disc + 1)
    | some ss =>
        if maxRanges ≤ nmatches + 1 then (seeds ++ ss, nmatches + 1, disc)
        else retrieveSeedsGo K C F maxBestFlex maxRanges distf rs (seeds ++ ss)
          (nmatches + 1) disc

/-- The seed order produced by `glidesort::sort_by_key(..., |s| (s.rval,
s.rpos))`: stable, lexicographic on `(rval, rpos)`. -/
def seedKeyLe (s1 s2 : Seed) : Prop :=
  s1.rval < s2.rval ∨ (s1.rval = s2.rval ∧ s1.rpos ≤ s2.rpos)

instance : DecidableRel seedKeyLe := fun s1 s2 => by
  unfold seedKeyLe
  infer_instance

/-- `StdSeedExtractor::generate` (src/align/process/seed_extractor.rs,
lines 86-120): a first pass under `max_best_flex`; if it retained fewer than
`min_ranges` productive ranges and discarded at least one range, a recovery
pass with the cap relaxed to 128 — run *on top of the first pass's seed
list*, which is not cleared; finally a stable sort by `(rval, rpos)`. -/
def seedExtractorGenerate (K C F maxBestFlex maxRanges minRanges : Nat)
    (distf : Nat → Nat → Nat) (ranges : List FRange) : List Seed :=
  let pass1 := retrieveSeedsGo K C F maxBestFlex maxRanges distf ranges [] 0 0
  let seeds2 :=
    if pass1.2.1 < minRanges ∧ 0 < pass1.2.2 then
      (retrieveSeedsGo K C F 128 maxRanges distf ranges pass1.1 0 0).1
    else pass1.1
  seeds2.insertionSort seedKeyLe

/-- Seeds from consuming each productive range exactly once under the
relaxed cap 128, sorted — what the claim says the recovery pass amounts
to. -/
def relaxedOnceSeeds (K C F maxRanges : Nat) (distf : Nat → Nat → Nat)
    (ranges : List FRange) : List Seed :=
  ((retrieveSeedsGo K C F 128 maxRanges distf ranges [] 0 0).1).insertionSort seedKeyLe

lemma foldl_min_le (l : List Nat) : ∀ m : Nat, l.foldl min m ≤ m := by
  induction l with
  | nil => intro m; simp
  | cons x xs ih =>
      intro m
      simp only [List.foldl_cons]
      exact le_trans (ih (min m x)) (min_le_left m x)

lemma minCountStep_foldl :
    ∀ (rest : List Nat) (m c : Nat),
      rest.foldl minCountStep (m, c) =
        (rest.foldl min m,
         if rest.foldl min m = m then c + rest.count (rest.foldl min m)
         else rest.count (rest.foldl min m)) := by
  intro rest
  induction rest with
  | nil => intro m c; simp
  | cons d rest' ih =>
      intro m c
      rcases Nat.lt_trichotomy d m with hlt | heq | hgt
      · have hstep : minCountStep (m, c) d = (d, 1) := by
          simp [minCountStep, hlt]
        have hm'le : rest'.foldl min d ≤ d := foldl_min_le rest' d
        have hfold : (d :: rest').foldl min m = rest'.foldl min d := by
          rw [List.foldl_cons, min_eq_right (le_of_lt hlt)]
        rw [List.foldl_cons, hstep, ih d 1, hfold]
        have hne : rest'.foldl min d ≠ m := by omega
        rw [if_neg hne]
        simp only [List.count_cons, beq_iff_eq, Prod.mk.injEq, true_and]
        by_cases hdm : rest'.foldl min d = d
        · simp [hdm]
          omega
        · simp [hdm]
          omega
      · subst heq
        have hstep : minCountStep (d, c) d = (d, c + 1) := by
          simp [minCountStep]
        have hfold : (d :: rest').foldl min d = rest'.foldl min d := by
          rw [List.foldl_cons, min_self]
        rw [List.foldl_cons, hstep, ih d (c + 1), hfold]
        simp only [List.count_cons, beq_iff_eq, Prod.mk.injEq, true_and]
        by_cases hdm : rest'.foldl min d = d
        · simp [hdm]
          omega
        · simp [hdm]
          omega
      · have hstep : minCountStep (m, c) d = (m, c) := by
          have h1 : ¬ d < m := not_lt.mpr (le_of_lt hgt)
          have h2 : d ≠ m := Nat.ne_of_gt hgt
          simp [minCountStep, h1, h2]
        have hm'le : rest'.foldl min m ≤ m := foldl_min_le rest' m
        have hfold : (d :: rest').foldl min m = rest'.foldl min m := by
          rw [List.foldl_cons, min_eq_left (le_of_lt hgt)]
        rw [List.foldl_cons, hstep, ih m c, hfold]
        have hne : rest'.foldl min m ≠ d := by omega
        simp only [List.count_cons, beq_iff_eq, Prod.mk.injEq, true_and]
        by_cases hXm : rest'.foldl min m = m <;> simp [hXm, hne] <;> omega

lemma foldl_min_mem (ds : List Nat) : ∀ m, ds.foldl min m = m ∨ ds.foldl min m ∈ ds := by
  induction ds with
  | nil => intro m; exact Or.inl rfl
  | cons x xs ih =>
      intro m
      simp only [List.foldl_cons]
      rcases ih (min m x) with h | h
      · rw [h]
        rcases Nat.le_total m x with h1 | h1
        · exact Or.inl (min_eq_left h1)
        · exact Or.inr (by rw [min_eq_right h1]; exact List.mem_cons_self x xs)
      · exact Or.inr (List.mem_cons_of_mem x h)

lemma foldl_min_le_mem (ds : List Nat) : ∀ m, ∀ d ∈ ds, ds.foldl min m ≤ d := by
  induction ds with
  | nil => intro m d hd; simp at hd
  | cons x xs ih =>
      intro m d hd
      simp only [List.foldl_cons]
      rcases List.mem_cons.mp hd with h | h
      · subst h
        exact le_trans (foldl_min_le xs (min m d)) (min_le_right m d)
      · exact ih (min m x) d h

lemma minCountLoop_eq (distf : Nat → Nat → Nat) (flex : Nat) (hs : List Nat) :
    minCountLoop distf flex hs =
      ((hs.map (distf flex)).foldl min 4294967295,
       (hs.map (distf flex)).count ((hs.map (distf flex)).foldl min 4294967295)) := by
  unfold minCountLoop
  rw [← List.foldl_map (distf flex) minCountStep]
  rw [minCountStep_foldl]
  by_cases h : (hs.map (distf flex)).foldl min 4294967295 = 4294967295
  · rw [if_pos h]
    simp
  · rw [if_neg h]

/-- C8: for a range carrying stored fingerprints, the range is discarded
exactly when the number of fingerprints at the minimum distance `d*`
exceeds `max_best_flex`; otherwise exactly the positions whose fingerprint
is at distance `d*` yield seeds, each with `mismatch = d*`, with length `K`
at `(qpos, rpos)` when `d* = 0` and length `C` at `(qpos + F/2, rpos + F/2)`
when `d* > 0`. -/
theorem c8_flex_range_selection (K C F maxBestFlex : Nat) (distf : Nat → Nat → Nat)
    (r : FRange) (hs : List Nat)
    (hh : r.header = some hs) (hne : hs ≠ [])
    (hpar : hs.length = r.positions.length)
    (hd : ∀ h ∈ hs, distf r.flex h < 256)
    (hK : K < 256) (hC : C < 256) :
    ∃ dstar,
      dstar ∈ hs.map (distf r.flex) ∧
      (∀ d ∈ hs.map (distf r.flex), dstar ≤ d) ∧
      (rangeStep K C F maxBestFlex distf r = none ↔
        maxBestFlex < (hs.map (distf r.flex)).count dstar) ∧
      (∀ seeds, rangeStep K C F maxBestFlex distf r = some seeds →
        seeds = (hs.zip r.positions).filterMap (fun p =>
          if distf r.flex p.1 = dstar then
            some { qpos := if dstar = 0 then r.qpos else r.qpos + F / 2
                   rpos := if dstar = 0 then p.2.2 else p.2.2 + F / 2
                   rval := p.2.1
                   mismatch := dstar
                   length := if dstar = 0 then K else C
                   flag := 0 }
          else none)) := by
  set ds := hs.map (distf r.flex) with hds
  set dmin := ds.foldl min 4294967295 with hdmin
  have hdsne : ds ≠ [] := by
    intro h
    exact hne (List.map_eq_nil.mp (hds ▸ h))
  have hdsbound : ∀ d ∈ ds, d < 256 := by
    intro d hdm
    rw [hds] at hdm
    obtain ⟨h, hh2, he⟩ := List.mem_map.mp hdm
    exact he ▸ hd h hh2
  have hmem : dmin ∈ ds := by
    rcases foldl_min_mem ds 4294967295 with h | h
    · exfalso
      obtain ⟨d0, hd0⟩ := List.exists_mem_of_ne_nil ds hdsne
      have h1 := foldl_min_le_mem ds 4294967295 d0 hd0
      have h2 := hdsbound d0 hd0
      rw [← hdmin] at h1
      omega
    · exact h
  have hminlt : dmin < 256 := hdsbound dmin hmem
  have hloop : minCountLoop distf r.flex hs = (dmin, ds.count dmin) := by
    rw [minCountLoop_eq]
  refine ⟨dmin, hmem, fun d hdm => foldl_min_le_mem ds 4294967295 d hdm, ?_, ?_⟩
  · simp only [rangeStep, hh, hloop]
    by_cases hcle : ds.count dmin ≤ maxBestFlex
    · have hnlt : ¬ maxBestFlex < ds.count dmin := by omega
      simp [hcle, hnlt]
    · have hlt : maxBestFlex < ds.count dmin := by omega
      simp [hcle, hlt]
  · intro seeds hsome
    simp only [rangeStep, hh, hloop] at hsome
    by_cases hcle : ds.count dmin ≤ maxBestFlex
    · rw [if_pos hcle] at hsome
      simp only [Option.some.injEq] at hsome
      subst hsome
      apply List.filterMap_congr
      intro p hp
      have hp1 : p.1 ∈ hs := (List.of_mem_zip (by exact hp)).1
      by_cases hdist : distf r.flex p.1 = dmin
      · rw [if_pos hdist, if_pos hdist, hdist]
        unfold Seed.fromFlexmer
        have hm256 : dmin % 256 = dmin := Nat.mod_eq_of_lt hminlt
        by_cases h0 : dmin = 0
        · simp [h0, Nat.mod_eq_of_lt hK]
        · simp [h0, hm256, Nat.mod_eq_of_lt hC]
      · rw [if_neg hdist, if_neg hdist]
    · rw [if_neg hcle] at hsome
      simp at hsome

lemma retrieveSeedsGo_acc (K C F mbf mr : Nat) (distf : Nat → Nat → Nat) :
    ∀ (rs : List FRange) (acc : List Seed) (m d : Nat),
      retrieveSeedsGo K C F mbf mr distf rs acc m d =
        (acc ++ (retrieveSeedsGo K C F mbf mr distf rs [] m d).1,
         (retrieveSeedsGo K C F mbf mr distf rs [] m d).2) := by
  intro rs
  induction rs with
  | nil => intro acc m d; simp [retrieveSeedsGo]
  | cons r rs ih =>
      intro acc m d
      simp only [retrieveSeedsGo]
      cases hstep : rangeStep K C F mbf distf r with
      | none => exact ih acc m (d + 1)
      | some ss =>
          by_cases hbr : mr ≤ m + 1
          · simp [hbr]
          · simp only [hbr, if_false]
            rw [ih (acc ++ ss) (m + 1) d, ih ([] ++ ss) (m + 1) d]
            simp [List.append_assoc]

/-- C3, amended: when the recovery pass triggers (fewer than `min_ranges`
productive ranges and a nonzero discard counter), the final seed list is
*not* idempotent under the retry — it is the first pass's seeds plus the
seeds of consuming every range productive under the relaxed cap 128 once
more, so every seed of a first-pass-productive range occurs once per pass
(multiplicities add). -/
theorem c3_recovery_duplicates_amended (K C F mbf mr minR : Nat)
    (distf : Nat → Nat → Nat) (ranges : List FRange)
    (hrec : (retrieveSeedsGo K C F mbf mr distf ranges [] 0 0).2.1 < minR ∧
            0 < (retrieveSeedsGo K C F mbf mr distf ranges [] 0 0).2.2) :
    ∀ s : Seed, (seedExtractorGenerate K C F mbf mr minR distf ranges).count s =
      (retrieveSeedsGo K C F mbf mr distf ranges [] 0 0).1.count s +
      (relaxedOnceSeeds K C F mr distf ranges).count s := by
  intro s
  simp only [seedExtractorGenerate]
  rw [if_pos hrec]
  rw [(List.perm_insertionSort seedKeyLe _).count_eq s]
  rw [retrieveSeedsGo_acc K C F 128 mr distf ranges
    (retrieveSeedsGo K C F mbf mr distf ranges [] 0 0).1 0 0]
  rw [List.count_append]
  unfold relaxedOnceSeeds
  rw [(List.perm_insertionSort seedKeyLe _).count_eq s]

/-- C3/C8 concrete data.  `c3Dist` is a stand-in fingerprint distance (the
real one, `Header::dist`, is a Hamming distance in the external `flexmap`
crate; the control flow under scrutiny is distance-generic). -/
def c3Dist : Nat → Nat → Nat := fun f h => if f = h then 0 else 1

/-- A range whose single fingerprint matches the query flank exactly. -/
def c3Range1 : FRange :=
  { qpos := 0, flex := 7, header := some [7], positions := [(3, 50)] }

/-- A range with two fingerprints tied at distance 1: discarded under
`max_best_flex = 1`, productive under the relaxed cap. -/
def c3Range2 : FRange :=
  { qpos := 2, flex := 7, header := some [5, 6], positions := [(4, 80), (4, 90)] }

def c3Ranges : List FRange := [c3Range1, c3Range2]

/-- The seed `c3Range1` contributes (exact hit, `K = 31`). -/
def c3SeedS1 : Seed :=
  { rpos := 50, rval := 3, qpos := 0, mismatch := 0, length := 31, flag := 0 }

/-- C3, counterexample: with `max_best_flex = 1`, `max_ranges = 10`,
`min_ranges = 2`, the first pass consumes `c3Range1` (one seed) and
discards `c3Range2`, triggering the recovery pass — which re-consumes
`c3Range1`.  The final list holds that seed twice, while consuming each
productive range exactly once under the relaxed cap 128 (the claim's
reading) yields it once. -/
theorem c3_counterexample :
    (seedExtractorGenerate 31 15 16 1 10 2 c3Dist c3Ranges).count c3SeedS1 = 2 ∧
    (relaxedOnceSeeds 31 15 16 10 c3Dist c3Ranges).count c3SeedS1 = 1 ∧
    (2 : Nat) ≠ 1 := by
  refine ⟨by decide, by decide, by decide⟩

/-- C3, witness for the amended theorem at the concrete input. -/
theorem c3_recovery_duplicates_amended_witness :
    (seedExtractorGenerate 31 15 16 1 10 2 c3Dist c3Ranges).count c3SeedS1 =
      (retrieveSeedsGo 31 15 16 1 10 c3Dist c3Ranges [] 0 0).1.count c3SeedS1 +
      (relaxedOnceSeeds 31 15 16 10 c3Dist c3Ranges).count c3SeedS1 :=
  c3_recovery_duplicates_amended 31 15 16 1 10 2 c3Dist c3Ranges
    ⟨by decide, by decide⟩ c3SeedS1

/-- C8, witness: on `c3Range2` with `max_best_flex = 1` the theorem lets us
conclude the range is discarded (`d* = 1` is attained by both fingerprints,
and `2 > 1`). -/
theorem c8_flex_range_selection_witness :
    rangeStep 31 15 16 1 c3Dist c3Range2 = none := by
  obtain ⟨dstar, hmem, hle, hiff, _⟩ :=
    c8_flex_range_selection 31 15 16 1 c3Dist c3Range2 [5, 6] rfl (by decide)
      (by decide) (by decide) (by decide) (by decide)
  have hdstar : dstar = 1 := by
    simp [c3Dist, c3Range2] at hmem
    exact hmem
  apply hiff.mpr
  rw [hdstar]
  decide

/-!
## C7: gap-free middle scoring (src/align/data_structures.rs,
`Anchor::align_middle`)
-/

/-- CIGAR symbols (src/align/sam.rs stores them as the bytes
`M X I D S`). -/
inductive CigOp where
  | M
  | X
  | I
  | D
  | S
deriving DecidableEq, Repr

/-- `i32::MIN`, the score `align_middle` reports when the budget is
exhausted. -/
def intMin32 : Int := -2147483648

/-- The `between` slices for a consecutive seed pair, zipped base-by-base:
`(query[s1.qend..s2.qbegin], reference[s1.rend..s2.rbegin])`. -/
def gapSlices (q r : List Nat) (a b : AnchorSeed) : List (Nat × Nat) :=
  ((q.drop a.qend).take (b.qbegin - a.qend)).zip
    ((r.drop a.rend).take (b.rbegin - a.rend))

/-- The loop of `Anchor::align_middle` (src/align/data_structures.rs,
lines 650-688), from the current seed onward: per gap, append `M`/`X`
base-by-base, deduct `4` per mismatch from the budget, return
`(i32::MIN, Dropped)` as soon as the budget goes negative, else append the
next seed's matches and continue.  The four malformed-range error returns
(`InvalidRange`, `QueryRangeError`, `ReferenceRangeError`) are conflated
into `none`.  Result: `(cigar-appended, score, status, final budget)`. -/
def alignMiddleGo (q r : List Nat) :
    AnchorSeed → List AnchorSeed → Int → Option (List CigOp × Int × Status × Int)
  | _, [], ms => some ([], 0, Status.OK, ms)
  | cur, next :: rest, ms =>
      if next.qbegin < cur.qend ∨ next.rbegin < cur.rend then none
      else if q.length ≤ next.qbegin ∨ r.length ≤ next.rbegin then none
      else
        let z := gapSlices q r cur next
        let gapCig := z.map (fun p => if p.1 = p.2 then CigOp.M else CigOp.X)
        let mis : Int := (z.countP (fun p => decide (p.1 ≠ p.2)) : Int)
        let ms' := ms - mis * 4
        if ms' < 0 then
          some (gapCig, intMin32, Status.Dropped, ms')
        else
          (alignMiddleGo q r next rest ms').map (fun out =>
            (gapCig ++ List.replicate next.length CigOp.M ++ out.1,
             (match out.2.2.1 with
              | Status.Dropped => out.2.1
              | _ => out.2.1 - mis * 4),
             out.2.2.1, out.2.2.2))

/-- `Anchor::align_middle`: emit the first seed's matches, then process the
gaps; `none` also covers the `first().unwrap()` panic on an empty seed
list. -/
def alignMiddle (q r : List Nat) (seeds : List AnchorSeed) (maxScore : Int) :
    Option (List CigOp × Int × Status × Int) :=
  match seeds with
  | [] => none
  | s0 :: rest =>
      (alignMiddleGo q r s0 rest maxScore).map (fun out =>
        (List.replicate s0.length CigOp.M ++ out.1, out.2))

/-- Claim-side: total number of mismatching base pairs over all gaps
between consecutive anchor seeds. -/
def middleMismatches (q r : List Nat) : List AnchorSeed → Nat
  | [] => 0
  | [_] => 0
  | a :: b :: t =>
      (gapSlices q r a b).countP (fun p => decide (p.1 ≠ p.2)) +
        middleMismatches q r (b :: t)

/-- Claim-side: the gap part of the expected CIGAR from the current seed
onward — per gap one `M` for each equal pair and one `X` for each unequal
pair, followed by the next seed's `M` run. -/
def middleCigarTail (q r : List Nat) : AnchorSeed → List AnchorSeed → List CigOp
  | _, [] => []
  | a, b :: t =>
      (gapSlices q r a b).map (fun p => if p.1 = p.2 then CigOp.M else CigOp.X) ++
        List.replicate b.length CigOp.M ++ middleCigarTail q r b t

/-- Claim-side: the full expected middle CIGAR — the seeds' `M` runs
interleaved with the per-gap `M`/`X` comparisons. -/
def middleCigarSpec (q r : List Nat) (seeds : List AnchorSeed) : List CigOp :=
  match seeds with
  | [] => []
  | a :: t => List.replicate a.length CigOp.M ++ middleCigarTail q r a t

lemma alignMiddleGo_spec (q r : List Nat) :
    ∀ (rest : List AnchorSeed) (cur : AnchorSeed) (ms : Int),
      List.Chain' (fun a b => a.qend ≤ b.qbegin ∧ a.rend ≤ b.rbegin) (cur :: rest) →
      (∀ b ∈ rest, b.qbegin < q.length ∧ b.rbegin < r.length) →
      ∃ cig sc st msOut,
        alignMiddleGo q r cur rest ms = some (cig, sc, st, msOut) ∧
        (st = Status.Dropped ↔
          (rest ≠ [] ∧ ms - 4 * (middleMismatches q r (cur :: rest) : Int) < 0)) ∧
        (st = Status.Dropped → sc = intMin32) ∧
        (st ≠ Status.Dropped →
          st = Status.OK ∧
          sc = -(4 * (middleMismatches q r (cur :: rest) : Int)) ∧
          msOut = ms - 4 * (middleMismatches q r (cur :: rest) : Int) ∧
          cig = middleCigarTail q r cur rest) := by
  intro rest
  induction rest with
  | nil =>
      intro cur ms _ _
      refine ⟨[], 0, Status.OK, ms, rfl, ?_, ?_, ?_⟩
      · simp [middleMismatches]
      · intro h; exact absurd h (by simp)
      · intro _
        refine ⟨rfl, ?_, ?_, rfl⟩
        · simp [middleMismatches]
        · simp [middleMismatches]
  | cons next t ih =>
      intro cur ms hchain hbound
      have hadj : cur.qend ≤ next.qbegin ∧ cur.rend ≤ next.rbegin :=
        List.chain'_cons.mp hchain |>.1
      have hchain' : List.Chain' (fun a b => a.qend ≤ b.qbegin ∧ a.rend ≤ b.rbegin)
          (next :: t) := (List.chain'_cons.mp hchain).2
      have hb : next.qbegin < q.length ∧ next.rbegin < r.length :=
        hbound next (List.mem_cons_self _ _)
      have hif1 : ¬ (next.qbegin < cur.qend ∨ next.rbegin < cur.rend) := by
        push_neg
        exact hadj
      have hif2 : ¬ (q.length ≤ next.qbegin ∨ r.length ≤ next.rbegin) := by
        push_neg
        exact hb
      set gm : Nat := (gapSlices q r cur next).countP (fun p => decide (p.1 ≠ p.2))
        with hgm
      have hmis : middleMismatches q r (cur :: next :: t) =
          gm + middleMismatches q r (next :: t) := by
        simp [middleMismatches, hgm]
      by_cases hdrop : ms - (gm : Int) * 4 < 0
      · refine ⟨(gapSlices q r cur next).map (fun p => if p.1 = p.2 then CigOp.M else CigOp.X),
          intMin32, Status.Dropped, ms - (gm : Int) * 4, ?_, ?_, ?_, ?_⟩
        · simp only [alignMiddleGo, if_neg hif1, if_neg hif2, ← hgm, if_pos hdrop]
        · constructor
          · intro _
            refine ⟨by simp, ?_⟩
            rw [hmis]
            have hle : (0 : Int) ≤ (middleMismatches q r (next :: t) : Int) :=
              Int.ofNat_nonneg _
            push_cast
            push_cast at hdrop
            omega
          · intro _; rfl
        · intro _; rfl
        · intro h; exact absurd rfl h
      · obtain ⟨cig, sc, st, msOut, hgo, hiff, hdr, hok⟩ :=
          ih next (ms - (gm : Int) * 4) hchain'
            (fun b hbm => hbound b (List.mem_cons_of_mem _ hbm))
        by_cases hstd : st = Status.Dropped
        · subst hstd
          refine ⟨(gapSlices q r cur next).map (fun p => if p.1 = p.2 then CigOp.M else CigOp.X)
              ++ List.replicate next.length CigOp.M ++ cig, sc, Status.Dropped, msOut,
              ?_, ?_, ?_, ?_⟩
          · simp only [alignMiddleGo, if_neg hif1, if_neg hif2, ← hgm, if_neg hdrop, hgo,
              Option.map_some']
          · constructor
            · intro _
              refine ⟨by simp, ?_⟩
              have h2 := (hiff.mp rfl).2
              rw [hmis]
              push_cast
              push_cast at h2
              omega
            · intro _; rfl
          · intro _; exact hdr rfl
          · intro hc; exact absurd rfl hc
        · obtain ⟨hstOK, hsc, hms, hcig⟩ := hok hstd
          subst hstOK
          refine ⟨(gapSlices q r cur next).map (fun p => if p.1 = p.2 then CigOp.M else CigOp.X)
              ++ List.replicate next.length CigOp.M ++ cig, sc - (gm : Int) * 4,
              Status.OK, msOut, ?_, ?_, ?_, ?_⟩
          · simp only [alignMiddleGo, if_neg hif1, if_neg hif2, ← hgm, if_neg hdrop, hgo,
              Option.map_some']
          · constructor
            · intro h; exact absurd h (by simp)
            · rintro ⟨hne, h2⟩
              exfalso
              have hinner : ¬ (t ≠ [] ∧
                  ms - (gm : Int) * 4 - 4 * (middleMismatches q r (next :: t) : Int) < 0) := by
                intro hr
                have := hiff.mpr hr
                simp at this
              rw [hmis] at h2
              by_cases ht : t = []
              · subst ht
                simp only [middleMismatches] at h2
                push_cast at h2
                omega
              · have h3 : ¬ (ms - (gm : Int) * 4 -
                    4 * (middleMismatches q r (next :: t) : Int) < 0) :=
                  fun h4 => hinner ⟨ht, h4⟩
                push_cast at h2 h3
                omega
          · intro h; exact absurd h (by simp)
          · intro _
            refine ⟨rfl, ?_, ?_, ?_⟩
            · rw [hsc, hmis]
              push_cast
              ring
            · rw [hms, hmis]
              push_cast
              ring
            · rw [hcig]
              rfl

/-- C7: for an anchor with well-formed middle ranges, `align_middle`
succeeds; its status is `Dropped` exactly when the running budget, after
deducting 4 per mismatch gap-by-gap, becomes negative (equivalently, when
at least one gap exists and `max_score < 4 × total mismatches`); otherwise
it returns `OK` with score `−4 × total mismatches`, final budget
`max_score − 4 × total mismatches`, and a CIGAR consisting of the seeds'
`M` runs interleaved with one `M` per equal and one `X` per unequal base
pair in every gap. -/
theorem c7_align_middle_spec (q r : List Nat) (s0 : AnchorSeed)
    (rest : List AnchorSeed) (ms : Int)
    (hchain : List.Chain' (fun a b => a.qend ≤ b.qbegin ∧ a.rend ≤ b.rbegin)
      (s0 :: rest))
    (hbound : ∀ b ∈ rest, b.qbegin < q.length ∧ b.rbegin < r.length) :
    ∃ cig sc st msOut,
      alignMiddle q r (s0 :: rest) ms = some (cig, sc, st, msOut) ∧
      (st = Status.Dropped ↔
        (rest ≠ [] ∧ ms - 4 * (middleMismatches q r (s0 :: rest) : Int) < 0)) ∧
      (st = Status.Dropped → sc = intMin32) ∧
      (st ≠ Status.Dropped →
        st = Status.OK ∧
        sc = -(4 * (middleMismatches q r (s0 :: rest) : Int)) ∧
        msOut = ms - 4 * (middleMismatches q r (s0 :: rest) : Int) ∧
        cig = middleCigarSpec q r (s0 :: rest)) := by
  obtain ⟨cig, sc, st, msOut, hgo, hiff, hdr, hok⟩ :=
    alignMiddleGo_spec q r rest s0 ms hchain hbound
  refine ⟨List.replicate s0.length CigOp.M ++ cig, sc, st, msOut, ?_, hiff, hdr, ?_⟩
  · simp only [alignMiddle, hgo, Option.map_some']
  · intro hst
    obtain ⟨hstOK, hsc, hms, hcig⟩ := hok hst
    exact ⟨hstOK, hsc, hms, by rw [hcig]; rfl⟩

/-- C7, witness: a two-seed anchor over concrete sequences with one
mismatching base in the gap; the theorem applies and the instance
evaluates. -/
theorem c7_align_middle_spec_witness :
    ∃ cig sc st msOut,
      alignMiddle [1, 1, 2, 1, 1, 3] [1, 1, 9, 1, 1, 3] [⟨0, 0, 2⟩, ⟨3, 3, 2⟩] 100 =
        some (cig, sc, st, msOut) ∧
      (st = Status.Dropped ↔
        (([⟨3, 3, 2⟩] : List AnchorSeed) ≠ [] ∧
          (100 : Int) - 4 * (middleMismatches [1, 1, 2, 1, 1, 3] [1, 1, 9, 1, 1, 3]
            [⟨0, 0, 2⟩, ⟨3, 3, 2⟩] : Int) < 0)) ∧
      (st = Status.Dropped → sc = intMin32) ∧
      (st ≠ Status.Dropped →
        st = Status.OK ∧
        sc = -(4 * (middleMismatches [1, 1, 2, 1, 1, 3] [1, 1, 9, 1, 1, 3]
          [⟨0, 0, 2⟩, ⟨3, 3, 2⟩] : Int)) ∧
        msOut = (100 : Int) - 4 * (middleMismatches [1, 1, 2, 1, 1, 3] [1, 1, 9, 1, 1, 3]
          [⟨0, 0, 2⟩, ⟨3, 3, 2⟩] : Int) ∧
        cig = middleCigarSpec [1, 1, 2, 1, 1, 3] [1, 1, 9, 1, 1, 3]
          [⟨0, 0, 2⟩, ⟨3, 3, 2⟩]) :=
  c7_align_middle_spec [1, 1, 2, 1, 1, 3] [1, 1, 9, 1, 1, 3] ⟨0, 0, 2⟩ [⟨3, 3, 2⟩] 100
    (List.chain'_cons.mpr ⟨⟨by decide, by decide⟩, List.chain'_singleton _⟩) (by decide)

/-!
## C6: exact seed extension (src/align/data_structures.rs,
`Anchor::extend_seeds`)
-/

/-- Rust slicing `&l[a..b]`: `none` models the panic when `a > b` or
`b > l.len()`. -/
def sliceL (l : List Nat) (a b : Nat) : Option (List Nat) :=
  if a ≤ b ∧ b ≤ l.length then some ((l.drop a).take (b - a)) else none

/-- Index of the first mismatching pair, i.e. the result of
`zip(..).enumerate().find(|(i, (a, b))| a != b)`; applied to a reversed zip
it is the source's trailing-match count. -/
def firstMismatchIdx : List (Nat × Nat) → Option Nat
  | [] => none
  | p :: t => if p.1 = p.2 then (firstMismatchIdx t).map (fun i => i + 1) else some 0

/-- The middle loop of `Anchor::extend_seeds` (src/align/data_structures.rs,
lines 732-774), from the current seed onward.  Per gap: if the whole zipped
gap matches, merge the next seed into the current one
(`extend_right(gap + next.length)`, remove, `continue`); otherwise extend
the next seed leftward by the trailing-match count and the current seed
rightward by the leading-match count.  `none` models the slice panics and
the `panic!("This should not happen.")`. -/
def extendMiddle (q r : List Nat) : AnchorSeed → List AnchorSeed → Option (List AnchorSeed)
  | cur, [] => some [cur]
  | cur, next :: rest =>
      match sliceL q cur.qend next.qbegin, sliceL r cur.rend next.rbegin with
      | some mq, some mr =>
          let z := mq.zip mr
          match firstMismatchIdx z.reverse with
          | none => extendMiddle q r (cur.extendRight (mq.length + next.length)) rest
          | some k =>
              match firstMismatchIdx z with
              | none => none
              | some m =>
                  (extendMiddle q r (next.extendLeft k) rest).map
                    (fun out => cur.extendRight m :: out)
      | _, _ => none

/-- `Anchor::extend_seeds` (src/align/data_structures.rs, lines 693-812):
no-op when the orientation is unresolved; otherwise extend the first seed
into the left flank by its trailing exact match, run the middle loop, and
extend the last seed into the right flank by its leading exact match.
`none` models the `unwrap`s and slice panics. -/
def Anchor.extendSeeds (a : Anchor) (q r : List Nat) : Option Anchor :=
  if ¬ a.orientation_set then some a
  else
    match a.seeds with
    | [] => none
    | s0 :: rest =>
        match sliceL q (s0.qbegin - min s0.qbegin s0.rbegin) s0.qbegin,
              sliceL r (s0.rbegin - min s0.qbegin s0.rbegin) s0.rbegin with
        | some lq, some lr =>
            let s0' :=
              match firstMismatchIdx (lq.zip lr).reverse with
              | some k => s0.extendLeft k
              | none => s0.extendLeft lq.length
            match extendMiddle q r s0' rest with
            | none => none
            | some seeds =>
                match seeds.getLast? with
                | none => none
                | some lastS =>
                    if lastS.qend ≤ q.length ∧ lastS.rend ≤ r.length then
                      let ov := min (q.length - lastS.qend) (r.length - lastS.rend)
                      match sliceL q lastS.qend (lastS.qend + ov),
                            sliceL r lastS.rend (lastS.rend + ov) with
                      | some rq, some rr =>
                          let lastS' :=
                            match firstMismatchIdx (rq.zip rr) with
                            | some k => lastS.extendRight k
                            | none => lastS.extendRight rq.length
                          some { a with seeds := seeds.dropLast ++ [lastS'] }
                      | _, _ => none
                    else none
        | _, _ => none

/-- Adjacent non-overlap on both axes (spec §3 invariant (iii)). -/
def seedNO (a b : AnchorSeed) : Prop :=
  a.qend ≤ b.qbegin ∧ a.rend ≤ b.rbegin

instance : DecidableRel seedNO := fun a b => by
  unfold seedNO
  infer_instance

instance : IsTrans AnchorSeed seedNO where
  trans a b c hab hbc := by
    unfold seedNO at *
    unfold AnchorSeed.qend AnchorSeed.qbegin AnchorSeed.rend AnchorSeed.rbegin at *
    omega

lemma sliceL_spec {l : List Nat} {a b : Nat} {s : List Nat}
    (h : sliceL l a b = some s) : a ≤ b ∧ b ≤ l.length ∧ s.length = b - a := by
  unfold sliceL at h
  split at h
  · rename_i hc
    simp only [Option.some.injEq] at h
    subst h
    refine ⟨hc.1, hc.2, ?_⟩
    rw [List.length_take, List.length_drop]
    omega
  · simp at h

lemma firstMismatchIdx_lt {z : List (Nat × Nat)} {m : Nat}
    (h : firstMismatchIdx z = some m) : m < z.length := by
  induction z generalizing m with
  | nil => simp [firstMismatchIdx] at h
  | cons p t ih =>
      simp only [firstMismatchIdx] at h
      split at h
      · rw [Option.map_eq_some'] at h
        obtain ⟨m', hm', hmm⟩ := h
        subst hmm
        simpa using Nat.succ_lt_succ (ih hm')
      · simp only [Option.some.injEq] at h
        subst h
        simp

lemma firstMismatchIdx_min {z : List (Nat × Nat)} {m : Nat}
    (h : firstMismatchIdx z = some m) :
    ∀ j (hj : j < z.length), (z.get ⟨j, hj⟩).1 ≠ (z.get ⟨j, hj⟩).2 → m ≤ j := by
  induction z generalizing m with
  | nil => simp [firstMismatchIdx] at h
  | cons p t ih =>
      simp only [firstMismatchIdx] at h
      split at h
      · rename_i hp
        rw [Option.map_eq_some'] at h
        obtain ⟨m', hm', hmm⟩ := h
        subst hmm
        intro j hj hmis
        cases j with
        | zero => exact absurd (by simpa using hmis) (by simpa using hp)
        | succ j' =>
            have := ih hm' j' (by simpa using Nat.lt_of_succ_lt_succ hj)
              (by simpa using hmis)
            omega
      · simp only [Option.some.injEq] at h
        subst h
        intro j hj _
        exact Nat.zero_le j

lemma firstMismatchIdx_mismatch {z : List (Nat × Nat)} {m : Nat}
    (h : firstMismatchIdx z = some m) :
    ∃ hm : m < z.length, (z.get ⟨m, hm⟩).1 ≠ (z.get ⟨m, hm⟩).2 := by
  induction z generalizing m with
  | nil => simp [firstMismatchIdx] at h
  | cons p t ih =>
      simp only [firstMismatchIdx] at h
      split at h
      · rename_i hp
        rw [Option.map_eq_some'] at h
        obtain ⟨m', hm', hmm⟩ := h
        subst hmm
        obtain ⟨hlt, hmis⟩ := ih hm'
        exact ⟨by simpa using Nat.succ_lt_succ hlt, by simpa using hmis⟩
      · rename_i hp
        simp only [Option.some.injEq] at h
        subst h
        exact ⟨by simp, by simpa using hp⟩

/-- If both the reversed and the forward scans of `z` find a mismatch, the
forward index `m` and the reversed index `k` satisfy `m + k < z.length`. -/
lemma firstMismatchIdx_fwd_rev {z : List (Nat × Nat)} {m k : Nat}
    (hf : firstMismatchIdx z = some m)
    (hr : firstMismatchIdx z.reverse = some k) : m + k < z.length := by
  obtain ⟨hkr, hmisr⟩ := firstMismatchIdx_mismatch hr
  have hk : k < z.length := by simpa using hkr
  have hidx : z.length - 1 - k < z.length := by omega
  have hget : z.reverse.get ⟨k, hkr⟩ = z.get ⟨z.length - 1 - k, hidx⟩ := by
    rw [List.get_eq_getElem, List.get_eq_getElem, List.getElem_reverse]
  rw [hget] at hmisr
  have := firstMismatchIdx_min hf (z.length - 1 - k) hidx hmisr
  omega

lemma extendMiddle_chain (q r : List Nat) :
    ∀ (l : List AnchorSeed) (cur : AnchorSeed) (out : List AnchorSeed),
      extendMiddle q r cur l = some out →
      (∃ c' t, out = c' :: t ∧ c'.qpos = cur.qpos ∧ c'.rpos = cur.rpos ∧
        cur.length ≤ c'.length) ∧
      List.Chain' seedNO out ∧
      ((0 < cur.length ∧ ∀ s ∈ l, 0 < s.length) → ∀ s ∈ out, 0 < s.length) := by
  intro l
  induction l with
  | nil =>
      intro cur out h
      simp only [extendMiddle, Option.some.injEq] at h
      subst h
      refine ⟨⟨cur, [], rfl, rfl, rfl, le_refl _⟩, List.chain'_singleton _, ?_⟩
      rintro ⟨hc, _⟩ s hs
      rw [List.mem_singleton] at hs
      subst hs
      exact hc
  | cons next rest ih =>
      intro cur out h
      simp only [extendMiddle] at h
      cases hmq : sliceL q cur.qend next.qbegin with
      | none =>
          rw [hmq] at h
          simp at h
      | some mq =>
      cases hmr : sliceL r cur.rend next.rbegin with
      | none =>
          rw [hmq, hmr] at h
          simp at h
      | some mr =>
      rw [hmq, hmr] at h
      dsimp only at h
      obtain ⟨hq1, hq2, hq3⟩ := sliceL_spec hmq
      obtain ⟨hr1, hr2, hr3⟩ := sliceL_spec hmr
      cases hrev : firstMismatchIdx (mq.zip mr).reverse with
      | none =>
          rw [hrev] at h
          obtain ⟨⟨c', t', hout, hqh, hrh, hlh⟩, hchain, hpos⟩ := ih _ out h
          refine ⟨⟨c', t', hout, hqh, hrh, ?_⟩, hchain, ?_⟩
          · calc cur.length ≤ cur.length + (mq.length + next.length) :=
              Nat.le_add_right ..
            _ ≤ c'.length := hlh
          · rintro ⟨hc, hrest⟩ s hs
            refine hpos ⟨?_, fun s' hs' => hrest s' (List.mem_cons_of_mem _ hs')⟩ s hs
            simp only [AnchorSeed.extendRight]
            omega
      | some k =>
          rw [hrev] at h
          cases hfwd : firstMismatchIdx (mq.zip mr) with
          | none =>
              rw [hfwd] at h
              simp at h
          | some m =>
              rw [hfwd] at h
              rw [Option.map_eq_some'] at h
              obtain ⟨out', hout', hmm⟩ := h
              subst hmm
              obtain ⟨⟨c', t', hsh, hqh, hrh, hlh⟩, hchain, hpos⟩ := ih _ out' hout'
              have hmk := firstMismatchIdx_fwd_rev hfwd hrev
              rw [List.length_zip] at hmk
              have hadj : seedNO (cur.extendRight m) c' := by
                unfold seedNO
                simp only [AnchorSeed.qend, AnchorSeed.qbegin, AnchorSeed.rend,
                  AnchorSeed.rbegin, AnchorSeed.extendRight] at *
                rw [hqh, hrh]
                simp only [AnchorSeed.extendLeft]
                omega
              refine ⟨⟨cur.extendRight m, out', rfl, rfl, rfl, Nat.le_add_right ..⟩,
                ?_, ?_⟩
              · rw [hsh]
                rw [hsh] at hchain
                exact List.chain'_cons.mpr ⟨hadj, hchain⟩
              · rintro ⟨hc, hrest⟩ s hs
                rcases List.mem_cons.mp hs with h1 | h2
                · subst h1
                  simp only [AnchorSeed.extendRight]
                  omega
                · refine hpos ⟨?_, fun s' hs' => hrest s' (List.mem_cons_of_mem _ hs')⟩ s h2
                  have := hrest next (List.mem_cons_self _ _)
                  simp only [AnchorSeed.extendLeft]
                  omega

/-- Strictly ascending and non-overlapping on both axes — the invariant the
claim asserts (spec §3). -/
def seedOrdered (s t : AnchorSeed) : Prop :=
  s.qpos < t.qpos ∧ s.rpos < t.rpos ∧ s.qend ≤ t.qbegin ∧ s.rend ≤ t.rbegin

instance : DecidableRel seedOrdered := fun a b => by
  unfold seedOrdered
  infer_instance

lemma pairwise_last_mod {R : AnchorSeed → AnchorSeed → Prop}
    (l1 : List AnchorSeed) (x x' : AnchorSeed)
    (hp : List.Pairwise R (l1 ++ [x]))
    (himp : ∀ a ∈ l1, R a x → R a x') :
    List.Pairwise R (l1 ++ [x']) := by
  rw [List.pairwise_append] at hp ⊢
  obtain ⟨h1, _, h3⟩ := hp
  refine ⟨h1, List.pairwise_singleton .., ?_⟩
  intro a ha b hb
  rw [List.mem_singleton] at hb
  subst hb
  exact himp a ha (h3 a ha x (by simp))

lemma pairwise_of_middle_and_last (q r : List Nat) (s0' : AnchorSeed)
    (rest seeds : List AnchorSeed) (lastS : AnchorSeed) (k : Nat)
    (hmid : extendMiddle q r s0' rest = some seeds)
    (hlast : seeds.getLast? = some lastS)
    (hpos0 : 0 < s0'.length) (hposr : ∀ s ∈ rest, 0 < s.length) :
    List.Pairwise seedOrdered (seeds.dropLast ++ [lastS.extendRight k]) := by
  obtain ⟨⟨c', t', hsh, _, _, _⟩, hchain, hpos⟩ := extendMiddle_chain q r rest s0' seeds hmid
  have hposAll : ∀ s ∈ seeds, 0 < s.length := hpos ⟨hpos0, hposr⟩
  have hpw : List.Pairwise seedNO seeds := List.chain'_iff_pairwise.mp hchain
  have hpwS : List.Pairwise seedOrdered seeds := by
    refine List.Pairwise.imp_of_mem ?_ hpw
    intro a b ha hb hno
    have hla := hposAll a ha
    unfold seedNO at hno
    unfold seedOrdered
    unfold AnchorSeed.qend AnchorSeed.qbegin AnchorSeed.rend AnchorSeed.rbegin at *
    omega
  have hne : seeds ≠ [] := by
    rw [hsh]
    exact List.cons_ne_nil _ _
  have hdecomp : seeds.dropLast ++ [lastS] = seeds := by
    have h1 : seeds.getLast hne = lastS := by
      rw [List.getLast?_eq_getLast seeds hne] at hlast
      exact (Option.some.injEq .. ▸ hlast).symm ▸ rfl
    rw [← h1]
    exact List.dropLast_append_getLast hne
  refine pairwise_last_mod seeds.dropLast lastS _ ?_ ?_
  · rw [hdecomp]
    exact hpwS
  · intro a _ h
    exact h

/-- C6: for every anchor whose orientation is set, whose seeds are strictly
ascending in `qpos` and `rpos` and pairwise non-overlapping on both axes,
have positive lengths, and match the reference exactly over their ranges,
if `extend_seeds` returns then the resulting seeds are still strictly
ascending and pairwise non-overlapping on both the query and the reference
axis. -/
theorem c6_extend_seeds_invariants (a : Anchor) (q r : List Nat) (out : Anchor)
    (hor : a.orientation_set = true)
    (hlen : ∀ s ∈ a.seeds, 0 < s.length)
    (hasc : List.Pairwise seedOrdered a.seeds)
    (hmatch : ∀ s ∈ a.seeds, ∀ i < s.length,
      q.get? (s.qpos + i) = r.get? (s.rpos + i) ∧ (q.get? (s.qpos + i)).isSome = true)
    (hrun : a.extendSeeds q r = some out) :
    List.Pairwise seedOrdered out.seeds := by
  unfold Anchor.extendSeeds at hrun
  rw [hor] at hrun
  rw [if_neg (by simp)] at hrun
  cases hseeds : a.seeds with
  | nil =>
      rw [hseeds] at hrun
      simp at hrun
  | cons s0 rest =>
      rw [hseeds] at hrun
      dsimp only at hrun
      have hs0len : 0 < s0.length :=
        hlen s0 (by rw [hseeds]; exact List.mem_cons_self _ _)
      have hrestlen : ∀ s ∈ rest, 0 < s.length :=
        fun s hs => hlen s (by rw [hseeds]; exact List.mem_cons_of_mem _ hs)
      cases hlq : sliceL q (s0.qbegin - min s0.qbegin s0.rbegin) s0.qbegin with
      | none =>
          rw [hlq] at hrun
          simp at hrun
      | some lq =>
      cases hlr : sliceL r (s0.rbegin - min s0.qbegin s0.rbegin) s0.rbegin with
      | none =>
          rw [hlq, hlr] at hrun
          simp at hrun
      | some lr =>
      rw [hlq, hlr] at hrun
      dsimp only at hrun
      generalize hs0e : (match firstMismatchIdx (lq.zip lr).reverse with
        | some k => s0.extendLeft k
        | none => s0.extendLeft lq.length) = s0' at hrun
      have hpos0 : 0 < s0'.length := by
        rw [← hs0e]
        cases firstMismatchIdx (lq.zip lr).reverse with
        | none =>
            simp only [AnchorSeed.extendLeft]
            omega
        | some k =>
            simp only [AnchorSeed.extendLeft]
            omega
      cases hmid : extendMiddle q r s0' rest with
      | none =>
          rw [hmid] at hrun
          simp at hrun
      | some seeds =>
      rw [hmid] at hrun
      dsimp only at hrun
      cases hlastq : seeds.getLast? with
      | none =>
          rw [hlastq] at hrun
          simp at hrun
      | some lastS =>
      rw [hlastq] at hrun
      dsimp only at hrun
      by_cases hif : lastS.qend ≤ q.length ∧ lastS.rend ≤ r.length
      case neg =>
        rw [if_neg hif] at hrun
        simp at hrun
      case pos =>
      rw [if_pos hif] at hrun
      cases hrq : sliceL q lastS.qend
          (lastS.qend + min (q.length - lastS.qend) (r.length - lastS.rend)) with
      | none =>
          rw [hrq] at hrun
          simp at hrun
      | some rq =>
      cases hrr : sliceL r lastS.rend
          (lastS.rend + min (q.length - lastS.qend) (r.length - lastS.rend)) with
      | none =>
          rw [hrq, hrr] at hrun
          simp at hrun
      | some rr =>
      rw [hrq, hrr] at hrun
      dsimp only at hrun
      have hx : ∃ k, (match firstMismatchIdx (rq.zip rr) with
          | some k => lastS.extendRight k
          | none => lastS.extendRight rq.length) = lastS.extendRight k := by
        cases firstMismatchIdx (rq.zip rr) with
        | none => exact ⟨rq.length, rfl⟩
        | some k => exact ⟨k, rfl⟩
      obtain ⟨k, hk⟩ := hx
      rw [hk] at hrun
      simp only [Option.some.injEq] at hrun
      subst hrun
      exact pairwise_of_middle_and_last q r s0' rest seeds lastS k hmid hlastq
        hpos0 hrestlen

/-- Concrete anchor for exercising `Anchor.extendSeeds`: orientation set,
two exact-match seeds `(q0,r0,len 2)` and `(q4,r4,len 2)` on identical
query and reference strings of length 10. -/
def c6Anchor : Anchor :=
  { reference := 0, seed_count := 2, mismatches := 0, forward := true,
    orientation_set := true, seeds := [⟨0, 0, 2⟩, ⟨4, 4, 2⟩], score := 0 }

def c6ExpectedOut : Anchor :=
  { reference := 0, seed_count := 2, mismatches := 0, forward := true,
    orientation_set := true, seeds := [⟨0, 0, 10⟩], score := 0 }

theorem c6_extend_seeds_invariants_witness :
    List.Pairwise seedOrdered c6ExpectedOut.seeds :=
  c6_extend_seeds_invariants c6Anchor (List.replicate 10 0) (List.replicate 10 0)
    c6ExpectedOut rfl (by decide) (by decide) (by decide) (by decide)

/-! ### C10: the PAF `alignment_block_length` column -/

/-- Free function `hamming` (src/align/data_structures.rs, line 343): count
of unequal byte pairs under `zip`.  `Anchor::hamming` calls the equivalent
`triple_accel::hamming` on two equal-length slices. -/
def hammingDist (query reference : List Nat) : Nat :=
  (query.zip reference).foldl (fun acc p => acc + if p.1 = p.2 then 0 else 1) 0

/-- `Anchor::whole` (data_structures.rs, lines 847-860): the query/reference
ranges of the anchor extended by the common overhang on each side, from the
first seed; `seeds.first().unwrap()` on an empty anchor is `none`.  The
`usize` subtractions cannot underflow when the seed lies inside the read and
reference, the callers' situation. -/
def Anchor.whole (a : Anchor) (readLength refLength : Nat) :
    Option ((Nat × Nat) × (Nat × Nat)) :=
  match a.seeds.head? with
  | none => none
  | some s =>
      let leftOverhang := min s.qbegin s.rbegin
      let rightOverhang := min (readLength - s.qend) (refLength - s.rend)
      some ((s.qbegin - leftOverhang, s.qend + rightOverhang),
            (s.rbegin - leftOverhang, s.rend + rightOverhang))

/-- `Anchor::hamming` (data_structures.rs, lines 814-817): Hamming distance
between the query and reference slices given by `whole`. -/
def Anchor.hamming (a : Anchor) (query reference : List Nat) : Option Nat :=
  match a.whole query.length reference.length with
  | none => none
  | some (qr, rr) =>
      some (hammingDist ((query.drop qr.1).take (qr.2 - qr.1))
                        ((reference.drop rr.1).take (rr.2 - rr.1)))

/-- One PAF record as assembled by `StdPAFOutput::write`
(src/align/process/output.rs, lines 17-47): the twelve tab-separated
columns in order.  The emitted text line is a pure function of these
fields, so the output buffer is modelled as a list of rows; strings are
byte lists. -/
structure PAFRow where
  query_name : List Nat
  query_length : Nat
  query_start : Int
  query_end : Int
  fwd : Bool
  reference_name : List Nat
  reference_length : Nat
  reference_start : Int
  reference_end : Int
  residue_matches : Nat
  alignment_block_length : Nat
  mapping_quality : Nat
deriving DecidableEq, Repr

/-- `StdPAFOutput::write`: append one formatted row to the buffer. -/
def stdPAFWrite (buf : List PAFRow) (query_name : List Nat)
    (query_length : Nat) (query_start query_end : Int) (fwd : Bool)
    (reference_name : List Nat) (reference_length : Nat)
    (reference_start reference_end : Int)
    (residue_matches alignment_block_length mapping_quality : Nat) :
    List PAFRow :=
  buf ++ [{ query_name := query_name
            query_length := query_length
            query_start := query_start
            query_end := query_end
            fwd := fwd
            reference_name := reference_name
            reference_length := reference_length
            reference_start := reference_start
            reference_end := reference_end
            residue_matches := residue_matches
            alignment_block_length := alignment_block_length
            mapping_quality := mapping_quality }]

/-- The `usize` value `core_matches() - mismatches - indels()` with the
release-mode wrap-around of `usize` subtraction made explicit. -/
def corelenU (a : Anchor) : Nat :=
  (a.coreMatches + 2 ^ 64 - a.mismatches - a.indels) % 2 ^ 64

/-- The single-end sort key `- (corelen as i64)` (modular_workflow.rs,
lines 85-87): the wrapped `usize` reinterpreted as `i64`, negated. -/
def anchorSortKey (a : Anchor) : Int :=
  - (if corelenU a < 2 ^ 63 then (corelenU a : Int) else (corelenU a : Int) - 2 ^ 64)

def anchorKeyLe (a b : Anchor) : Prop := anchorSortKey a ≤ anchorSortKey b

instance : DecidableRel anchorKeyLe := fun a b => Int.decLe _ _

/-- Output tail of the single-end `Modular::run`
(src/align/modular_workflow.rs, lines 77-153), after anchor extraction:
return unchanged when no anchors; sort descending by corelen
(`sort_unstable_by_key` modelled by a stable sort — the claim does not
depend on tie order); `pseudo_mapq` is the corelen lead of the best anchor
over the second; when an output is attached, write one row whose
`alignment_block_length` argument is the literal `0`.  The `unwrap`s on
`seeds.first()`/`seeds.last()` are `none`; the database name/length lookups
are abstracted as total functions; the gold-standard evaluation and debug
printing do not touch the buffer and are omitted. -/
def modularRunSE (buf : List PAFRow) (hasA : Bool) (queryName : List Nat)
    (queryLen : Nat) (rnames : Nat → List Nat) (rlens : Nat → Nat)
    (anchors : List Anchor) : Option (List PAFRow) :=
  if anchors = [] then some buf else
  match anchors.insertionSort anchorKeyLe with
  | [] => some buf
  | best :: others =>
      match best.seeds.head?, best.seeds.getLast? with
      | some sf, some sl =>
          let bestCore := corelenU best
          let secondCore := match others with
            | [] => 0
            | second :: _ => corelenU second
          let pseudoMapq := (bestCore + 2 ^ 64 - secondCore) % 2 ^ 64
          if hasA then
            some (stdPAFWrite buf queryName queryLen (sf.qbegin : Int)
              (sl.qend : Int) best.forward (rnames best.reference)
              (rlens best.reference) (sf.rbegin : Int) (sl.rend : Int)
              best.seed_count 0 (pseudoMapq % 256))
          else some buf
      | _, _ => none

/-- One mate's output block of `ModularPE::run` (modular_workflow.rs,
lines 610-682 for the forward mate and 686-745 for the reverse mate; the
source duplicates this code for the two mates): pick the strand's
sequence, compute the Hamming distance over `whole`, and when an output
is attached write one row with `residue_matches = query_len - hamming`,
the literal `0` for `alignment_block_length`, and the pair mapq.
`unwrap`s on empty seed lists are `none`. -/
def peMateWrite (buf : List PAFRow) (hasA : Bool) (head : List Nat)
    (seqLen : Nat) (seqFwd seqRevc : List Nat) (rnames : Nat → List Nat)
    (references : Nat → List Nat) (pseudoMapq : Nat) :
    Option Anchor → Option (List PAFRow)
  | none => some buf
  | some best =>
      let refStr := rnames best.reference
      let reference := references best.reference
      let query := if best.forward then seqFwd else seqRevc
      match best.hamming query reference, best.seeds.head?,
            best.seeds.getLast? with
      | some ham, some sf, some sl =>
          if hasA then
            some (stdPAFWrite buf head seqLen (sf.qbegin : Int)
              (sl.qend : Int) best.forward refStr reference.length
              (sf.rbegin : Int) (sl.rend : Int) (query.length - ham) 0
              pseudoMapq)
          else some buf
      | _, _, _ => none

/-- Output tail of the paired-end `ModularPE::run` (modular_workflow.rs,
lines 507-745): `pseudo_mapq` from `anchor_mapq` over the extension pairs;
the first pair is the reported one (`first().unwrap()` on an empty list,
and the `reference_id` unwrap when both mates are absent, are `none`); then
the two per-mate output blocks in order.  `validate_seeds` feeds only
debug output and is omitted. -/
def modularRunPE (buf : List PAFRow) (hasA : Bool)
    (headFwd headRev : List Nat)
    (recFwdSeq recFwdRevc recRevSeq recRevRevc : List Nat)
    (rnames : Nat → List Nat) (references : Nat → List Nat)
    (extensionAnchors : List AnchorPair) : Option (List PAFRow) :=
  match anchorMapq extensionAnchors, extensionAnchors.head? with
  | some pseudoMapq, some pair =>
      match pair.1, pair.2 with
      | none, none => none
      | _, _ =>
          match peMateWrite buf hasA headFwd recFwdSeq.length recFwdSeq
              recFwdRevc rnames references pseudoMapq pair.1 with
          | none => none
          | some buf1 =>
              peMateWrite buf1 hasA headRev recRevSeq.length recRevSeq
                recRevRevc rnames references pseudoMapq pair.2
  | _, _ => none

lemma stdPAFWrite_mem (buf : List PAFRow) (qn : List Nat) (ql : Nat)
    (qs qe : Int) (f : Bool) (rn : List Nat) (rl : Nat) (rs re : Int)
    (rm abl mq : Nat) (row : PAFRow)
    (h : row ∈ stdPAFWrite buf qn ql qs qe f rn rl rs re rm abl mq) :
    row ∈ buf ∨ row.alignment_block_length = abl := by
  unfold stdPAFWrite at h
  rcases List.mem_append.mp h with h1 | h1
  · exact Or.inl h1
  · right
    rw [List.mem_singleton.mp h1]

lemma peMateWrite_mem (buf out : List PAFRow) (hasA : Bool)
    (hd : List Nat) (sl : Nat) (sf sr : List Nat) (rn : Nat → List Nat)
    (refs : Nat → List Nat) (mq : Nat) (m : Option Anchor)
    (h : peMateWrite buf hasA hd sl sf sr rn refs mq m = some out) :
    ∀ row ∈ out, row ∈ buf ∨ row.alignment_block_length = 0 := by
  intro row hrow
  cases m with
  | none =>
      simp only [peMateWrite, Option.some.injEq] at h
      subst h
      exact Or.inl hrow
  | some best =>
      simp only [peMateWrite] at h
      split at h
      case _ ham sfS slS heq1 heq2 heq3 =>
        split at h
        case isTrue =>
          simp only [Option.some.injEq] at h
          subst h
          exact stdPAFWrite_mem _ _ _ _ _ _ _ _ _ _ _ _ _ row hrow
        case isFalse =>
          simp only [Option.some.injEq] at h
          subst h
          exact Or.inl hrow
      case _ =>
        exact absurd h (by simp)

/-- C10: every PAF row emitted by the single-end `Modular::run` tail and by
the paired-end `ModularPE::run` tail carries the constant `0` in the
`alignment_block_length` column: whenever either run returns, every row of
the output buffer is a pre-existing row of the input buffer or has
`alignment_block_length = 0`; the column is never derived from the
alignment. -/
theorem c10_alignment_block_length_zero (buf out : List PAFRow) :
    (∀ (hasA : Bool) (qn : List Nat) (ql : Nat) (rnames : Nat → List Nat)
       (rlens : Nat → Nat) (anchors : List Anchor),
       modularRunSE buf hasA qn ql rnames rlens anchors = some out →
       ∀ row ∈ out, row ∈ buf ∨ row.alignment_block_length = 0) ∧
    (∀ (hasA : Bool) (hf hr qf qfr qr2 qrr : List Nat)
       (rnames references : Nat → List Nat) (pairs : List AnchorPair),
       modularRunPE buf hasA hf hr qf qfr qr2 qrr rnames references pairs =
         some out →
       ∀ row ∈ out, row ∈ buf ∨ row.alignment_block_length = 0) := by
  constructor
  · intro hasA qn ql rnames rlens anchors h row hrow
    simp only [modularRunSE] at h
    split at h
    · simp only [Option.some.injEq] at h
      subst h
      exact Or.inl hrow
    · split at h
      case _ =>
        simp only [Option.some.injEq] at h
        subst h
        exact Or.inl hrow
      case _ best others =>
        split at h
        case _ sf sl heq1 heq2 =>
          split at h
          case isTrue =>
            simp only [Option.some.injEq] at h
            subst h
            exact stdPAFWrite_mem _ _ _ _ _ _ _ _ _ _ _ _ _ row hrow
          case isFalse =>
            simp only [Option.some.injEq] at h
            subst h
            exact Or.inl hrow
        case _ =>
          exact absurd h (by simp)
  · intro hasA hf hr qf qfr qr2 qrr rnames references pairs h row hrow
    simp only [modularRunPE] at h
    split at h
    case _ pseudoMapq pair heq1 heq2 =>
      split at h
      case _ => exact absurd h (by simp)
      case _ =>
        split at h
        · exact absurd h (by simp)
        · rename_i buf1 heq3
          rcases peMateWrite_mem buf1 out hasA hr qr2.length qr2 qrr rnames
              references pseudoMapq pair.2 h row hrow with h1 | h1
          · rcases peMateWrite_mem buf buf1 hasA hf qf.length qf qfr rnames
                references pseudoMapq pair.1 heq3 row h1 with h2 | h2
            · exact Or.inl h2
            · exact Or.inr h2
          · exact Or.inr h1
    case _ =>
      exact absurd h (by simp)

/-- A concrete anchor driving one single-end output row. -/
def c10Anchor : Anchor :=
  { reference := 3, seed_count := 1, mismatches := 0, forward := true,
    orientation_set := true, seeds := [⟨0, 10, 31⟩], score := 0 }

/-- The row `modularRunSE` emits for `c10Anchor` on an empty buffer. -/
def c10Row : PAFRow :=
  { query_name := [65]
    query_length := 100
    query_start := 0
    query_end := 31
    fwd := true
    reference_name := [67]
    reference_length := 5000
    reference_start := 10
    reference_end := 41
    residue_matches := 1
    alignment_block_length := 0
    mapping_quality := 31 }

theorem c10_alignment_block_length_zero_witness :
    c10Row.alignment_block_length = 0 := by
  have h := (c10_alignment_block_length_zero [] [c10Row]).1 true [65] 100
    (fun _ => [67]) (fun _ => 5000) [c10Anchor] (by decide) c10Row (by decide)
  rcases h with h | h
  · exact absurd h (by decide)
  · exact h

end Flexalign
